import Mathlib

/-!
# Open-addressing hash table (`hash.c`, `hashtable.c`)

A shallow embedding of the integer hasher and of the linear-probing table
(`ht_init`, `ht_set`, `ht_unset`, `ht_grow`, `ht_get`), followed by the
properties established about them.

Conventions of the embedding.

* A C `int` is an `Int`; its 32-bit pattern is `toU32`, and a pattern is read
  back as a signed value by `toI32`.  `unsigned int` fields (`size`, `mask`)
  are `Nat` with an explicit `% 2 ^ 32` wherever C arithmetic can wrap.
* The slot array is a `List HashTableEntry`.  `calloc` gives zeroed slots.
* Loops carry a fuel argument: `none` means that the fuel ran out before the
  C function returned.  A function that returns does so for every large
  enough fuel; a function that loops forever yields `none` for every fuel.
* Probe indices are the `Nat` value of `hash_int(key) & mask`; this is the
  value of the C `int index` whenever `mask < 2 ^ 31`.
-/

namespace HT

/-! ## Data model -/

/-- One slot: `char is_set; int key; int value;`. -/
structure HashTableEntry where
  is_set : Bool
  key : Int
  value : Int
deriving DecidableEq

/-- The table: `HashTableEntry *entries; unsigned size; unsigned mask;`. -/
structure HashTable where
  entries : List HashTableEntry
  size : Nat
  mask : Nat
deriving DecidableEq

/-- A zeroed slot, as produced by `calloc`. -/
def zeroEntry : HashTableEntry := ⟨false, 0, 0⟩

/-- The slot read `ht->entries + index`. -/
def entryAt (es : List HashTableEntry) (index : Nat) : HashTableEntry :=
  es.getD index zeroEntry

/-! ## `hash.c` -/

/-- The 32-bit pattern of a C `int`. -/
def toU32 (k : Int) : Nat := (k % 4294967296).toNat

/-- The signed value of a 32-bit pattern. -/
def toI32 (u : Nat) : Int := if u < 2147483648 then (u : Int) else (u : Int) - 4294967296

/-- The body of `hash_int` on 32-bit patterns, with wrapping arithmetic and an
arithmetic right shift:
`k *= 357913941; k ^= k << 24; k += ~357913941; k ^= k >> 31; k ^= k << 31;`. -/
def hashBits (u : Nat) : Nat :=
  let k := (u * 357913941) % 4294967296
  let k := k ^^^ ((k <<< 24) % 4294967296)
  let k := (k + 3937053354) % 4294967296
  let k := k ^^^ (if k < 2147483648 then 0 else 4294967295)
  let k := k ^^^ ((k <<< 31) % 4294967296)
  k

/-- The function `int hash_int(int k)`. -/
def hash_int (k : Int) : Int := toI32 (hashBits (toU32 k))

/-! ## `hashtable.c` -/

/-- The function `ht_init`: 4096 zeroed slots, size 0, mask `0xfff`. -/
def ht_init : HashTable :=
  { entries := List.replicate (0xfff + 1) zeroEntry, size := 0, mask := 0xfff }

/-- The start index `hash_int(key) & ht->mask`. -/
def startIndex (mask : Nat) (key : Int) : Nat := toU32 (hash_int key) &&& mask

/-- The probe loop of `ht_set`.  Returns the final index, the number of
collisions and the `overwritten` flag. -/
def setProbe : Nat → List HashTableEntry → Nat → Int → Nat → Nat → Option (Nat × Nat × Bool)
  | 0, _, _, _, _, _ => none
  | fuel + 1, es, mask, key, index, collisions =>
    if (entryAt es index).is_set then
      if (entryAt es index).key = key then some (index, collisions, true)
      else setProbe fuel es mask key ((index + 1) &&& mask) (collisions + 1)
    else some (index, collisions, false)

/-- The probe loop of `ht_get`.  The inner option is the returned pointer:
`some v` for `&entry->value` with `*ptr = v`, `none` for `NULL`. -/
def getProbe : Nat → List HashTableEntry → Nat → Int → Nat → Option (Option Int)
  | 0, _, _, _, _ => none
  | fuel + 1, es, mask, key, index =>
    if (entryAt es index).is_set then
      if (entryAt es index).key = key then some (some (entryAt es index).value)
      else getProbe fuel es mask key ((index + 1) &&& mask)
    else some none

/-- The function `ht_get`. -/
def ht_get (fuel : Nat) (ht : HashTable) (key : Int) : Option (Option Int) :=
  getProbe fuel ht.entries ht.mask key (startIndex ht.mask key)

/-- The loop of `ht_unset`.  The index is never advanced, so an occupied slot
holding another key makes the loop repeat in the same state. -/
def unsetLoop : Nat → HashTable → Int → Nat → Option (HashTable × Int)
  | 0, _, _, _ => none
  | fuel + 1, ht, key, index =>
    if (entryAt ht.entries index).is_set then
      if (entryAt ht.entries index).key = key then
        some ({ entries := ht.entries.set index
                  ⟨false, (entryAt ht.entries index).key, (entryAt ht.entries index).value⟩,
                size := ht.size, mask := ht.mask }, 1)
      else unsetLoop fuel ht key index
    else some (ht, 0)

/-- The function `ht_unset`. -/
def ht_unset (fuel : Nat) (ht : HashTable) (key : Int) : Option (HashTable × Int) :=
  unsetLoop fuel ht key (startIndex ht.mask key)

mutual

/-- The function `ht_set`.  Returns the new table and the collision count. -/
def ht_set : Nat → HashTable → Int → Int → Option (HashTable × Nat)
  | 0, _, _, _ => none
  | fuel + 1, ht, key, value =>
    match setProbe fuel ht.entries ht.mask key (startIndex ht.mask key) 0 with
    | none => none
    | some (index, collisions, overwritten) =>
      let entries := ht.entries.set index ⟨true, key, value⟩
      if overwritten then some ({ ht with entries := entries }, collisions)
      else
        let size := (ht.size + 1) % 4294967296
        if (size * 2) % 4294967296 > ht.mask then
          match ht_grow fuel { entries := entries, size := size, mask := ht.mask } with
          | none => none
          | some ht' => some (ht', collisions)
        else some ({ entries := entries, size := size, mask := ht.mask }, collisions)

/-- The function `ht_grow`. -/
def ht_grow : Nat → HashTable → Option HashTable
  | 0, _ => none
  | fuel + 1, ht =>
    let mask := ((ht.mask <<< 1) ||| 1) % 4294967296
    growLoop fuel ht
      { entries := List.replicate ((mask + 1) % 4294967296) zeroEntry, size := 0, mask := mask } 0

/-- The copy loop of `ht_grow`: `for (i = 0; i <= ht->mask; i++)`. -/
def growLoop : Nat → HashTable → HashTable → Nat → Option HashTable
  | 0, _, _, _ => none
  | fuel + 1, ht, new_table, i =>
    if i ≤ ht.mask then
      if (entryAt ht.entries i).is_set then
        match ht_set fuel new_table (entryAt ht.entries i).key (entryAt ht.entries i).value with
        | none => none
        | some (new_table', _) => growLoop fuel ht new_table' (i + 1)
      else growLoop fuel ht new_table (i + 1)
    else some new_table

end

/-! ## Vocabulary of the properties -/

/-- The slot array has `mask + 1` slots and the capacity is a power of two. -/
def WF (ht : HashTable) : Prop :=
  ht.entries.length = ht.mask + 1 ∧ ∃ e, ht.mask + 1 = 2 ^ e

/-- Number of slots whose `is_set` flag is set. -/
def occupied (es : List HashTableEntry) : Nat := es.countP (fun e => e.is_set)

/-- An occupied slot of the table holds the pair `(k, v)`. -/
def Stored (ht : HashTable) (k v : Int) : Prop :=
  ∃ i, i ≤ ht.mask ∧ entryAt ht.entries i = ⟨true, k, v⟩

/-- The `d` slots met when probing from `s` (stepping `+1` modulo `n`) are all
occupied by keys other than `k`. -/
def Blocked (es : List HashTableEntry) (n s : Nat) (k : Int) (d : Nat) : Prop :=
  ∀ j, j < d → (entryAt es ((s + j) % n)).is_set = true ∧ (entryAt es ((s + j) % n)).key ≠ k

/-- Probing for `k` from `s` stops after exactly `d` steps: the first `d` slots
are blocked and the next one is empty or holds `k`. -/
def StopsAt (es : List HashTableEntry) (n s : Nat) (k : Int) (d : Nat) : Prop :=
  Blocked es n s k d ∧
    ((entryAt es ((s + d) % n)).is_set = true → (entryAt es ((s + d) % n)).key = k)

/-- Probe reachability: every occupied slot is reached from the start index of
its key over occupied slots only, none of which holds that key. -/
def Chain (ht : HashTable) : Prop :=
  ∀ i, i ≤ ht.mask → (entryAt ht.entries i).is_set = true →
    ∃ d, d ≤ ht.mask ∧
      (startIndex ht.mask (entryAt ht.entries i).key + d) % (ht.mask + 1) = i ∧
      Blocked ht.entries (ht.mask + 1) (startIndex ht.mask (entryAt ht.entries i).key)
        (entryAt ht.entries i).key d

/-- No two occupied slots hold the same key. -/
def UniqueKeys (ht : HashTable) : Prop :=
  ∀ i j, i ≤ ht.mask → j ≤ ht.mask →
    (entryAt ht.entries i).is_set = true → (entryAt ht.entries j).is_set = true →
    (entryAt ht.entries i).key = (entryAt ht.entries j).key → i = j

/-- The mask is one less than a power of two that fits in 32 bits. -/
def Pow32 (m : Nat) : Prop := ∃ e, e ≤ 32 ∧ m + 1 = 2 ^ e

/-- Invariant of the tables built by `ht_set` alone. -/
def Inv (ht : HashTable) : Prop :=
  WF ht ∧ Chain ht ∧ ht.size = occupied ht.entries ∧ ht.size * 2 ≤ ht.mask ∧
    4095 ≤ ht.mask ∧ ht.mask < 2147483648

/-- Invariant of the tables built by `ht_set` and `ht_unset`. -/
def Sound (ht : HashTable) : Prop :=
  WF ht ∧ occupied ht.entries ≤ ht.size ∧ ht.size * 2 ≤ ht.mask ∧
    4095 ≤ ht.mask ∧ ht.mask < 2147483648

/-- Among the slots of index below `i`, the occupied slot of largest index that
holds `k` holds the value `v`. -/
def LastBelow (es : List HashTableEntry) (i : Nat) (k v : Int) : Prop :=
  ∃ j, j < i ∧ entryAt es j = ⟨true, k, v⟩ ∧
    ∀ j', j < j' → j' < i → ¬((entryAt es j').is_set = true ∧ (entryAt es j').key = k)

/-- State of the copy loop of `ht_grow` when it reaches index `i`. -/
def GrowInv (ht nt : HashTable) (i : Nat) : Prop :=
  WF nt ∧ Chain nt ∧ nt.size = occupied nt.entries ∧ nt.mask = 2 * ht.mask + 1 ∧
    nt.size ≤ occupied (ht.entries.take i) ∧
    (∀ k v, Stored nt k v ↔ LastBelow ht.entries i k v) ∧
    (UniqueKeys ht → nt.size = occupied (ht.entries.take i))

/-- What `ht_grow` returns on the table `old`: a chained table of twice the
capacity in which each key of `old` has the value of its last occupied slot. -/
def GrowOutcome (old r : HashTable) : Prop :=
  WF r ∧ Chain r ∧ r.size = occupied r.entries ∧ r.mask = 2 * old.mask + 1 ∧
    r.size ≤ occupied old.entries ∧
    (∀ k v, Stored r k v ↔ LastBelow old.entries (old.mask + 1) k v) ∧
    (UniqueKeys old → r.size = occupied old.entries)

/-- What `ht_set ht k v` returns: the probe stops after `c` steps at a slot `p`;
the pair is written there; then the call is an overwrite, a plain insertion,
or an insertion followed by a growth of the written table. -/
def SetOutcome (ht : HashTable) (k v : Int) (ht' : HashTable) (c : Nat) : Prop :=
  c ≤ ht.mask ∧ StopsAt ht.entries (ht.mask + 1) (startIndex ht.mask k) k c ∧
    (((entryAt ht.entries ((startIndex ht.mask k + c) % (ht.mask + 1))).is_set = true ∧
        ht' = { ht with entries :=
          ht.entries.set ((startIndex ht.mask k + c) % (ht.mask + 1)) ⟨true, k, v⟩ }) ∨
     ((entryAt ht.entries ((startIndex ht.mask k + c) % (ht.mask + 1))).is_set = false ∧
        (ht.size + 1) * 2 ≤ ht.mask ∧
        ht' = { entries :=
                  ht.entries.set ((startIndex ht.mask k + c) % (ht.mask + 1)) ⟨true, k, v⟩,
                size := ht.size + 1, mask := ht.mask }) ∨
     ((entryAt ht.entries ((startIndex ht.mask k + c) % (ht.mask + 1))).is_set = false ∧
        ht.mask < (ht.size + 1) * 2 ∧ ht.mask < 1073741824 ∧
        GrowOutcome
          { entries :=
              ht.entries.set ((startIndex ht.mask k + c) % (ht.mask + 1)) ⟨true, k, v⟩,
            size := ht.size + 1, mask := ht.mask } ht'))

/-- A call made on the table. -/
inductive Op where
  | set (key value : Int)
  | unset (key : Int)
deriving DecidableEq

/-- The table `ht` is obtained from `ht_init` by the calls `ops` (most recent
first), each of which returned, the mask staying below `2 ^ 31` (so that no
32-bit arithmetic of the C code overflows). -/
inductive Reach : List Op → HashTable → Prop
  | init : Reach [] ht_init
  | set {ops : List Op} {ht : HashTable} (fuel : Nat) (k v : Int) (ht' : HashTable) (c : Nat) :
      Reach ops ht → ht_set fuel ht k v = some (ht', c) → ht'.mask < 2147483648 →
      Reach (Op.set k v :: ops) ht'
  | unset {ops : List Op} {ht : HashTable} (fuel : Nat) (k : Int) (ht' : HashTable) (r : Int) :
      Reach ops ht → ht_unset fuel ht k = some (ht', r) → Reach (Op.unset k :: ops) ht'

/-- The value passed to the most recent `ht_set` for `k` in `ops` (most recent
first), `none` when there is none. -/
def lastSet : List Op → Int → Option Int
  | [], _ => none
  | Op.set k' v :: ops, k => if k' = k then some v else lastSet ops k
  | Op.unset _ :: ops, k => lastSet ops k

/-- The table after `ht_init` and `ht_set(5, 7)`: key 5 has start index 2732. -/
def sampleTable : HashTable :=
  { entries := (List.replicate 4096 zeroEntry).set 2732 ⟨true, 5, 7⟩, size := 1, mask := 4095 }

/-- The table `sampleTable` after `ht_unset(5)`. -/
def sampleCleared : HashTable :=
  { entries := (List.replicate 4096 zeroEntry).set 2732 ⟨false, 5, 7⟩, size := 1, mask := 4095 }

/-- The table after `ht_init` and `ht_set(0, 0)`: key 0 has start index 1365. -/
def collideA : HashTable :=
  { entries := (List.replicate 4096 zeroEntry).set 1365 ⟨true, 0, 0⟩, size := 1, mask := 4095 }

/-- The table `collideA` after `ht_set(4095, 1)`: key 4095 has start index 1365
too and lands in slot 1366. -/
def collideB : HashTable :=
  { entries := ((List.replicate 4096 zeroEntry).set 1365 ⟨true, 0, 0⟩).set 1366 ⟨true, 4095, 1⟩,
    size := 2, mask := 4095 }

/-- The table `collideB` after `ht_set(8191, 2)`: key 8191 has start index 1365
too and lands in slot 1367. -/
def collideC : HashTable :=
  { entries := (((List.replicate 4096 zeroEntry).set 1365 ⟨true, 0, 0⟩).set 1366
      ⟨true, 4095, 1⟩).set 1367 ⟨true, 8191, 2⟩,
    size := 3, mask := 4095 }

/-- The table `collideC` after `ht_unset(0)`. -/
def deletedC : HashTable :=
  { entries := ((((List.replicate 4096 zeroEntry).set 1365 ⟨true, 0, 0⟩).set 1366
      ⟨true, 4095, 1⟩).set 1367 ⟨true, 8191, 2⟩).set 1365 ⟨false, 0, 0⟩,
    size := 3, mask := 4095 }

/-- The table `collideB` after `ht_unset(0)`. -/
def deletedB : HashTable :=
  { entries := (((List.replicate 4096 zeroEntry).set 1365 ⟨true, 0, 0⟩).set 1366
      ⟨true, 4095, 1⟩).set 1365 ⟨false, 0, 0⟩,
    size := 2, mask := 4095 }

/-- The table `deletedB` after `ht_set(4095, 3)`. -/
def duplicatedB : HashTable :=
  { entries := ((((List.replicate 4096 zeroEntry).set 1365 ⟨true, 0, 0⟩).set 1366
      ⟨true, 4095, 1⟩).set 1365 ⟨false, 0, 0⟩).set 1365 ⟨true, 4095, 3⟩,
    size := 3, mask := 4095 }

/-- The keys 1, 2, 4, 5, ..., 2046 (all of 1..2046 but 3): 2045 keys. -/
def fillKeys : List Int :=
  ((List.range 2047).filter (fun i => i != 0 && i != 3)).map Int.ofNat

/-- The calls `ht_set(0, 0)`, `ht_set(4095, 1)`, `ht_unset(0)` and then
`ht_set(k, k)` for the keys of `fillKeys`, most recent first. -/
def staleOps : List Op :=
  (fillKeys.map (fun k => Op.set k k)).reverse ++ [Op.unset 0, Op.set 4095 1, Op.set 0 0]

/-- A linear-time check that the start indices of `keys` are pairwise distinct
and avoid the indices whose bit is set in `used`. -/
def freeHomes (mask : Nat) : List Int → Nat → Bool
  | [], _ => true
  | k :: ks, used =>
    !(used.testBit (startIndex mask k)) &&
      freeHomes mask ks (used ||| (1 <<< startIndex mask k))

/-- The keys 0, 1, ..., 999 of the end-to-end scenario. -/
def scenarioKeys : List Int := (List.range 1000).map Int.ofNat

/-- The calls `ht_set(i, i)` for `i = 0, ..., 999` in order, most recent first. -/
def scenarioOps : List Op := (scenarioKeys.map (fun k => Op.set k k)).reverse

/-- Successive `ht_set` calls on the pairs of a list, in order, with the list
of the collision counts they return (the loop `total_collisions += ht_set(...)`
of `main`, keeping each count). -/
def runSets (fuel : Nat) : HashTable → List (Int × Int) → Option (HashTable × List Nat)
  | ht, [] => some (ht, [])
  | ht, (k, v) :: rest =>
    match ht_set fuel ht k v with
    | none => none
    | some (ht', c) =>
      match runSets fuel ht' rest with
      | none => none
      | some (ht'', cs) => some (ht'', c :: cs)

/-- The index held by the probe loops of `ht_set` and `ht_get` after `j`
advances: `hash_int(key) & mask`, then `index = (index + 1) & mask`. -/
def probeIndex (mask : Nat) (key : Int) : Nat → Nat
  | 0 => startIndex mask key
  | j + 1 => (probeIndex mask key j + 1) &&& mask

/-- Step 1 of `hash_int`: `k *= 357913941`. -/
def mixMul (k : Nat) : Nat := (k * 357913941) % 4294967296

/-- Step 2 of `hash_int`: `k ^= k << 24`. -/
def mixShl24 (k : Nat) : Nat := k ^^^ ((k <<< 24) % 4294967296)

/-- Step 3 of `hash_int`: `k += ~357913941`. -/
def mixAdd (k : Nat) : Nat := (k + 3937053354) % 4294967296

/-- Step 4 of `hash_int`: `k ^= k >> 31` (arithmetic shift). -/
def mixSar31 (k : Nat) : Nat := k ^^^ (if k < 2147483648 then 0 else 4294967295)

/-- Step 5 of `hash_int`: `k ^= k << 31`. -/
def mixShl31 (k : Nat) : Nat := k ^^^ ((k <<< 31) % 4294967296)

/-- The other 32-bit pattern with the same hash as `u`. -/
def twinBits (u : Nat) : Nat :=
  (mixShl24 ((4294967295 - mixAdd (mixShl24 (mixMul u)) + 357913942) % 4294967296)
    * 1073741821) % 4294967296

/-! ## Basic facts -/

theorem entryAt_set_self (es : List HashTableEntry) (i : Nat) (a : HashTableEntry)
    (h : i < es.length) : entryAt (es.set i a) i = a := by
  simp [entryAt, List.getElem?_set, h]

theorem entryAt_set_other (es : List HashTableEntry) (i j : Nat) (a : HashTableEntry)
    (h : i ≠ j) : entryAt (es.set i a) j = entryAt es j := by
  simp [entryAt, List.getElem?_set, h]

theorem entryAt_of_length_le (es : List HashTableEntry) (i : Nat) (h : es.length ≤ i) :
    entryAt es i = zeroEntry := by
  simp [entryAt, List.getElem?_eq_none h]

theorem entryAt_replicate (n i : Nat) : entryAt (List.replicate n zeroEntry) i = zeroEntry := by
  simp only [entryAt, List.getD_eq_getElem?_getD, List.getElem?_replicate]
  split <;> rfl

theorem lt_length_of_is_set (es : List HashTableEntry) (i : Nat)
    (h : (entryAt es i).is_set = true) : i < es.length := by
  by_contra hc
  rw [entryAt_of_length_le es i (by omega)] at h
  simp [zeroEntry] at h

theorem and_mask_eq_mod (x mask e : Nat) (hm : mask + 1 = 2 ^ e) :
    x &&& mask = x % (mask + 1) := by
  have : mask = 2 ^ e - 1 := by omega
  rw [hm, this, Nat.and_pow_two_sub_one_eq_mod]

theorem startIndex_le (mask e : Nat) (hm : mask + 1 = 2 ^ e) (k : Int) :
    startIndex mask k ≤ mask := by
  unfold startIndex
  rw [and_mask_eq_mod _ _ _ hm]
  have := Nat.mod_lt (toU32 (hash_int k)) (show 0 < mask + 1 by omega)
  omega

theorem cyc_inj (n s a b : Nat) (ha : a < n) (hb : b < n)
    (h : (s + a) % n = (s + b) % n) : a = b :=
  Nat.ModEq.eq_of_lt_of_lt (Nat.ModEq.add_left_cancel' s h) ha hb

theorem cyc_surj (n s i : Nat) (hs : s < n) (hi : i < n) :
    ∃ d, d < n ∧ (s + d) % n = i := by
  refine ⟨(i + n - s) % n, Nat.mod_lt _ (by omega), ?_⟩
  rw [Nat.add_mod_mod]
  have : s + (i + n - s) = i + n := by omega
  rw [this, Nat.add_mod_right, Nat.mod_eq_of_lt hi]

theorem blocked_shift (es : List HashTableEntry) (n s : Nat) (k : Int) (d : Nat)
    (h : Blocked es n s k (d + 1)) : Blocked es n ((s + 1) % n) k d := by
  intro j hj
  have := h (j + 1) (by omega)
  rw [Nat.mod_add_mod]
  have e : s + 1 + j = s + (j + 1) := by omega
  rw [e]; exact this

theorem setProbe_stops (es : List HashTableEntry) (mask e : Nat) (key : Int)
    (hm : mask + 1 = 2 ^ e) :
    ∀ d s c fuel, d < fuel → s ≤ mask → StopsAt es (mask + 1) s key d →
      setProbe fuel es mask key s c
        = some ((s + d) % (mask + 1), c + d, (entryAt es ((s + d) % (mask + 1))).is_set) := by
  intro d
  induction d with
  | zero =>
    intro s c fuel hf hs hst
    obtain ⟨f, rfl⟩ : ∃ f, fuel = f + 1 := ⟨fuel - 1, by omega⟩
    have hs' : (s + 0) % (mask + 1) = s := Nat.mod_eq_of_lt (by omega)
    have h2 := hst.2
    rw [hs'] at h2 ⊢
    unfold setProbe
    by_cases h1 : (entryAt es s).is_set = true
    · simp [h1, h2 h1]
    · simp [h1]
  | succ d ih =>
    intro s c fuel hf hs hst
    obtain ⟨f, rfl⟩ : ∃ f, fuel = f + 1 := ⟨fuel - 1, by omega⟩
    have h0 := hst.1 0 (by omega)
    have hs' : (s + 0) % (mask + 1) = s := Nat.mod_eq_of_lt (by omega)
    rw [hs'] at h0
    unfold setProbe
    rw [if_pos h0.1, if_neg h0.2, and_mask_eq_mod _ _ _ hm]
    have hst' : StopsAt es (mask + 1) ((s + 1) % (mask + 1)) key d := by
      refine ⟨blocked_shift _ _ _ _ _ hst.1, ?_⟩
      have e2 : ((s + 1) % (mask + 1) + d) % (mask + 1) = (s + (d + 1)) % (mask + 1) := by
        rw [Nat.mod_add_mod]; congr 1; omega
      rw [e2]; exact hst.2
    have hlt : (s + 1) % (mask + 1) ≤ mask := by
      have := Nat.mod_lt (s + 1) (show 0 < mask + 1 by omega); omega
    rw [ih _ (c + 1) f (by omega) hlt hst']
    have e2 : ((s + 1) % (mask + 1) + d) % (mask + 1) = (s + (d + 1)) % (mask + 1) := by
      rw [Nat.mod_add_mod]; congr 1; omega
    rw [e2]
    have e3 : c + 1 + d = c + (d + 1) := by omega
    rw [e3]

theorem getProbe_eq_setProbe (es : List HashTableEntry) (mask : Nat) (key : Int) :
    ∀ fuel s c, getProbe fuel es mask key s
      = (setProbe fuel es mask key s c).map
          (fun r => if r.2.2 then some (entryAt es r.1).value else none) := by
  intro fuel
  induction fuel with
  | zero => intro s c; rfl
  | succ f ih =>
    intro s c
    unfold getProbe setProbe
    by_cases h1 : (entryAt es s).is_set = true
    · by_cases h2 : (entryAt es s).key = key
      · simp [h1, h2]
      · simp only [h1, h2, if_true, if_false]
        exact ih _ _
    · simp [h1]

theorem exists_empty_of_occupied_lt (es : List HashTableEntry) (h : occupied es < es.length) :
    ∃ i, i < es.length ∧ (entryAt es i).is_set = false := by
  by_contra hc
  have hall : ∀ a ∈ es, (fun e : HashTableEntry => e.is_set) a = true := by
    intro a ha
    obtain ⟨i, hi, rfl⟩ := List.getElem_of_mem ha
    by_contra hn
    apply hc
    refine ⟨i, hi, ?_⟩
    simp only [entryAt, List.getD_eq_getElem?_getD, List.getElem?_eq_getElem hi, Option.getD_some]
    simpa using hn
  have := (List.countP_eq_length (p := fun e : HashTableEntry => e.is_set)).2 hall
  unfold occupied at h
  omega

theorem exists_stop (es : List HashTableEntry) (mask s i : Nat) (k : Int)
    (hs : s ≤ mask) (hi : i ≤ mask) (hempty : (entryAt es i).is_set = false) :
    ∃ d, d ≤ mask ∧ StopsAt es (mask + 1) s k d := by
  obtain ⟨d0, hd0, he0⟩ := cyc_surj (mask + 1) s i (by omega) (by omega)
  have hex : ∃ d, ((entryAt es ((s + d) % (mask + 1))).is_set = true →
      (entryAt es ((s + d) % (mask + 1))).key = k) := ⟨d0, by rw [he0, hempty]; simp⟩
  classical
  refine ⟨Nat.find hex, ?_, ?_, Nat.find_spec hex⟩
  · have : Nat.find hex ≤ d0 := Nat.find_min' hex (by rw [he0, hempty]; simp)
    omega
  · intro j hj
    have := Nat.find_min hex hj
    push_neg at this
    exact this

theorem stops_unique (es : List HashTableEntry) (n s : Nat) (k : Int) (d d' : Nat)
    (h : StopsAt es n s k d) (h' : Blocked es n s k d')
    (hk : (entryAt es ((s + d') % n)).is_set = true ∧ (entryAt es ((s + d') % n)).key = k) :
    d = d' := by
  rcases Nat.lt_trichotomy d d' with hlt | heq | hgt
  · have := h' d hlt
    exact absurd (h.2 this.1) this.2
  · exact heq
  · have := h.1 d' hgt
    exact absurd hk.2 this.2

theorem chain_unique (ht : HashTable) (hc : Chain ht) : UniqueKeys ht := by
  intro i j hi hj hsi hsj hk
  obtain ⟨d, hd, hdi, hbd⟩ := hc i hi hsi
  obtain ⟨d', hd', hdj, hbd'⟩ := hc j hj hsj
  rw [← hk] at hdj hbd'
  have hst : StopsAt ht.entries (ht.mask + 1) (startIndex ht.mask (entryAt ht.entries i).key)
      (entryAt ht.entries i).key d := ⟨hbd, fun _ => by rw [hdi]⟩
  have := stops_unique _ _ _ _ d d' hst hbd' (by rw [hdj]; exact ⟨hsj, hk.symm⟩)
  rw [← hdi, ← hdj, this]

theorem ht_get_of_stops (ht : HashTable) (e : Nat) (k : Int) (d fuel : Nat)
    (hm : ht.mask + 1 = 2 ^ e)
    (hst : StopsAt ht.entries (ht.mask + 1) (startIndex ht.mask k) k d) (hf : d < fuel) :
    ht_get fuel ht k =
      some (if (entryAt ht.entries ((startIndex ht.mask k + d) % (ht.mask + 1))).is_set
            then some (entryAt ht.entries ((startIndex ht.mask k + d) % (ht.mask + 1))).value
            else none) := by
  unfold ht_get
  rw [getProbe_eq_setProbe _ _ _ _ _ 0,
    setProbe_stops _ _ _ _ hm d _ 0 fuel hf (startIndex_le _ _ hm k) hst]
  simp

theorem ht_set_of_stops (ht : HashTable) (e : Nat) (k v : Int) (d fuel : Nat)
    (hm : ht.mask + 1 = 2 ^ e)
    (hst : StopsAt ht.entries (ht.mask + 1) (startIndex ht.mask k) k d) (hf : d < fuel) :
    ht_set (fuel + 1) ht k v =
      if (entryAt ht.entries ((startIndex ht.mask k + d) % (ht.mask + 1))).is_set then
        some ({ ht with entries :=
          ht.entries.set ((startIndex ht.mask k + d) % (ht.mask + 1)) ⟨true, k, v⟩ }, d)
      else if ((ht.size + 1) % 4294967296 * 2) % 4294967296 > ht.mask then
        (ht_grow fuel
          { entries := ht.entries.set ((startIndex ht.mask k + d) % (ht.mask + 1)) ⟨true, k, v⟩,
            size := (ht.size + 1) % 4294967296, mask := ht.mask }).map (fun t => (t, d))
      else
        some ({ entries :=
                  ht.entries.set ((startIndex ht.mask k + d) % (ht.mask + 1)) ⟨true, k, v⟩,
                size := (ht.size + 1) % 4294967296, mask := ht.mask }, d) := by
  rw [ht_set, setProbe_stops _ _ _ _ hm d _ 0 fuel hf (startIndex_le _ _ hm k) hst]
  simp only [Nat.zero_add]
  by_cases h1 : (entryAt ht.entries ((startIndex ht.mask k + d) % (ht.mask + 1))).is_set = true
  · simp [h1]
  · simp only [h1, Bool.false_eq_true, if_false]
    split
    · cases ht_grow fuel _ <;> rfl
    · rfl

theorem entryAt_eq_getElem (es : List HashTableEntry) (i : Nat) (h : i < es.length) :
    entryAt es i = es[i] := by
  simp [entryAt, List.getElem?_eq_getElem h]

theorem occupied_write (es : List HashTableEntry) (p : Nat) (k v : Int) (h : p < es.length) :
    occupied (es.set p ⟨true, k, v⟩)
      = occupied es + (if (entryAt es p).is_set then 0 else 1) := by
  unfold occupied
  rw [List.countP_set _ _ _ _ h, entryAt_eq_getElem es p h]
  have := List.boole_getElem_le_countP (fun e : HashTableEntry => e.is_set) es p h
  by_cases hs : es[p].is_set = true
  · simp only [hs, if_true] at this ⊢; omega
  · simp only [hs, if_false] at this ⊢; simp

theorem occupied_clear (es : List HashTableEntry) (p : Nat) (a : HashTableEntry)
    (h : p < es.length) (ha : a.is_set = false) (hs : (entryAt es p).is_set = true) :
    occupied (es.set p a) + 1 = occupied es := by
  unfold occupied
  rw [List.countP_set _ _ _ _ h]
  rw [entryAt_eq_getElem es p h] at hs
  have := List.boole_getElem_le_countP (fun e : HashTableEntry => e.is_set) es p h
  simp only [hs, if_true, ha] at this ⊢
  simp only [Bool.false_eq_true, if_false]
  omega

theorem blocked_write (es : List HashTableEntry) (n s : Nat) (k : Int) (d : Nat)
    (a : HashTableEntry) (hd : d < n) (h : Blocked es n s k d) :
    Blocked (es.set ((s + d) % n) a) n s k d := by
  intro j hj
  have hne : (s + d) % n ≠ (s + j) % n := by
    intro heq
    have := cyc_inj n s d j hd (by omega) heq
    omega
  rw [entryAt_set_other _ _ _ _ hne]
  exact h j hj

theorem stops_write (es : List HashTableEntry) (n s : Nat) (k v : Int) (d : Nat)
    (hd : d < n) (hlen : es.length = n) (h : StopsAt es n s k d) :
    StopsAt (es.set ((s + d) % n) ⟨true, k, v⟩) n s k d := by
  refine ⟨blocked_write _ _ _ _ _ _ hd h.1, fun _ => ?_⟩
  rw [entryAt_set_self _ _ _ (by rw [hlen]; exact Nat.mod_lt _ (by omega))]

theorem chain_write (ht : HashTable) (k v : Int) (d sz : Nat) (hwf : WF ht) (hc : Chain ht)
    (hd : d ≤ ht.mask)
    (hst : StopsAt ht.entries (ht.mask + 1) (startIndex ht.mask k) k d) :
    Chain { entries :=
              ht.entries.set ((startIndex ht.mask k + d) % (ht.mask + 1)) ⟨true, k, v⟩,
            size := sz, mask := ht.mask } := by
  have hp : (startIndex ht.mask k + d) % (ht.mask + 1) < ht.entries.length := by
    rw [hwf.1]; exact Nat.mod_lt _ (by omega)
  intro i hi hset
  simp only at hi hset ⊢
  by_cases hip : (startIndex ht.mask k + d) % (ht.mask + 1) = i
  · subst hip
    rw [entryAt_set_self _ _ _ hp]
    exact ⟨d, hd, rfl, blocked_write _ _ _ _ _ _ (by omega) hst.1⟩
  · rw [entryAt_set_other _ _ _ _ hip] at hset ⊢
    obtain ⟨d', hd', hdi, hb⟩ := hc i hi hset
    refine ⟨d', hd', hdi, ?_⟩
    intro j hj
    have hbj := hb j hj
    by_cases hq : (startIndex ht.mask k + d) % (ht.mask + 1)
        = (startIndex ht.mask (entryAt ht.entries i).key + j) % (ht.mask + 1)
    · rw [← hq, entryAt_set_self _ _ _ hp]
      rw [← hq] at hbj
      refine ⟨rfl, ?_⟩
      have := hst.2 hbj.1
      simp only
      rw [← this]
      exact hbj.2
    · rw [entryAt_set_other _ _ _ _ hq]
      exact hbj

theorem stored_write_sub (ht : HashTable) (p : Nat) (k v : Int) (sz : Nat) (k' v' : Int)
    (hp : p < ht.entries.length)
    (h : Stored { entries := ht.entries.set p ⟨true, k, v⟩, size := sz, mask := ht.mask } k' v') :
    (k' = k ∧ v' = v) ∨ Stored ht k' v' := by
  obtain ⟨i, hi, he⟩ := h
  simp only at hi he
  by_cases hip : p = i
  · subst hip
    rw [entryAt_set_self _ _ _ hp] at he
    injection he with _ h2 h3
    exact Or.inl ⟨h2.symm, h3.symm⟩
  · rw [entryAt_set_other _ _ _ _ hip] at he
    exact Or.inr ⟨i, hi, he⟩

theorem stored_write_self (ht : HashTable) (p : Nat) (k v : Int) (sz : Nat)
    (hp : p < ht.entries.length) (hpm : p ≤ ht.mask) :
    Stored { entries := ht.entries.set p ⟨true, k, v⟩, size := sz, mask := ht.mask } k v :=
  ⟨p, hpm, entryAt_set_self _ _ _ hp⟩

theorem stored_write_keep (ht : HashTable) (p : Nat) (k v : Int) (sz : Nat) (k' v' : Int)
    (hk : (entryAt ht.entries p).is_set = true → (entryAt ht.entries p).key = k)
    (hne : k' ≠ k) (h : Stored ht k' v') :
    Stored { entries := ht.entries.set p ⟨true, k, v⟩, size := sz, mask := ht.mask } k' v' := by
  obtain ⟨i, hi, he⟩ := h
  refine ⟨i, hi, ?_⟩
  simp only
  by_cases hip : p = i
  · subst hip
    rw [he] at hk
    exact absurd (hk rfl) hne
  · rw [entryAt_set_other _ _ _ _ hip]; exact he

theorem stored_write_iff (ht : HashTable) (p : Nat) (k v : Int) (sz : Nat) (k' v' : Int)
    (hp : p < ht.entries.length) (hpm : p ≤ ht.mask)
    (hk : (entryAt ht.entries p).is_set = true → (entryAt ht.entries p).key = k)
    (hu : UniqueKeys
      { entries := ht.entries.set p ⟨true, k, v⟩, size := sz, mask := ht.mask }) :
    Stored { entries := ht.entries.set p ⟨true, k, v⟩, size := sz, mask := ht.mask } k' v'
      ↔ (k' = k ∧ v' = v) ∨ (k' ≠ k ∧ Stored ht k' v') := by
  constructor
  · intro h
    by_cases hkk : k' = k
    · subst hkk
      left
      refine ⟨rfl, ?_⟩
      obtain ⟨i, hi, he⟩ := h
      simp only at hi he
      have hpe := entryAt_set_self ht.entries p ⟨true, k', v⟩ hp
      have := hu i p hi hpm (by simp only; rw [he]) (by simp only; rw [hpe])
        (by simp only; rw [he, hpe])
      subst this
      rw [hpe] at he
      injection he with _ _ h3
      exact h3.symm
    · rcases stored_write_sub ht p k v sz k' v' hp h with h1 | h1
      · exact absurd h1.1 hkk
      · exact Or.inr ⟨hkk, h1⟩
  · rintro (⟨rfl, rfl⟩ | ⟨hne, h⟩)
    · exact stored_write_self ht p _ _ sz hp hpm
    · exact stored_write_keep ht p k v sz k' v' hk hne h

/-! ## Fuel -/

theorem shl_or_one (m : Nat) : (m <<< 1) ||| 1 = 2 * m + 1 := by
  have h := Nat.mul_add_lt_is_or (i := 1) (b := 1) (by decide) m
  rw [Nat.shiftLeft_eq, Nat.mul_comm, h]

theorem setProbe_mono (es : List HashTableEntry) (mask : Nat) (key : Int) :
    ∀ f f' s c r, f ≤ f' → setProbe f es mask key s c = some r →
      setProbe f' es mask key s c = some r := by
  intro f
  induction f with
  | zero => intro f' s c r _ h; simp [setProbe] at h
  | succ f ih =>
    intro f' s c r hle h
    obtain ⟨g, rfl⟩ : ∃ g, f' = g + 1 := ⟨f' - 1, by omega⟩
    rw [setProbe] at h ⊢
    by_cases h1 : (entryAt es s).is_set = true
    · by_cases h2 : (entryAt es s).key = key
      · simpa [h1, h2] using h
      · simp only [h1, h2, if_true, if_false] at h ⊢
        exact ih g _ _ r (by omega) h
    · simpa [h1] using h

theorem getProbe_mono (es : List HashTableEntry) (mask : Nat) (key : Int) :
    ∀ f f' s r, f ≤ f' → getProbe f es mask key s = some r →
      getProbe f' es mask key s = some r := by
  intro f f' s r hle h
  rw [getProbe_eq_setProbe _ _ _ _ _ 0] at h ⊢
  cases hp : setProbe f es mask key s 0 with
  | none => simp [hp] at h
  | some t =>
    rw [setProbe_mono es mask key f f' s 0 t hle hp]
    rw [hp] at h
    exact h

theorem fuel_mono : ∀ f,
    (∀ f' ht k v r, f ≤ f' → ht_set f ht k v = some r → ht_set f' ht k v = some r) ∧
    (∀ f' ht r, f ≤ f' → ht_grow f ht = some r → ht_grow f' ht = some r) ∧
    (∀ f' ht nt i r, f ≤ f' → growLoop f ht nt i = some r → growLoop f' ht nt i = some r) := by
  intro f
  induction f with
  | zero =>
    refine ⟨?_, ?_, ?_⟩
    · intro f' ht k v r _ h; simp [ht_set] at h
    · intro f' ht r _ h; simp [ht_grow] at h
    · intro f' ht nt i r _ h; simp [growLoop] at h
  | succ f ih =>
    obtain ⟨ihs, ihg, ihl⟩ := ih
    refine ⟨?_, ?_, ?_⟩
    · intro f' ht k v r hle h
      obtain ⟨g, rfl⟩ : ∃ g, f' = g + 1 := ⟨f' - 1, by omega⟩
      rw [ht_set] at h ⊢
      cases hp : setProbe f ht.entries ht.mask k (startIndex ht.mask k) 0 with
      | none => simp [hp] at h
      | some t =>
        rw [setProbe_mono _ _ _ f g _ 0 t (by omega) hp]
        rw [hp] at h
        obtain ⟨idx, c, ow⟩ := t
        simp only at h ⊢
        by_cases how : ow = true
        · simpa [how] using h
        · simp only [how, Bool.false_eq_true, if_false] at h ⊢
          split
          · rename_i hgrow
            rw [if_pos hgrow] at h
            cases hg : ht_grow f
                { entries := ht.entries.set idx ⟨true, k, v⟩,
                  size := (ht.size + 1) % 4294967296, mask := ht.mask } with
            | none => simp [hg] at h
            | some t' =>
              rw [ihg g _ t' (by omega) hg]
              rw [hg] at h
              exact h
          · rename_i hgrow
            rw [if_neg hgrow] at h
            exact h
    · intro f' ht r hle h
      obtain ⟨g, rfl⟩ : ∃ g, f' = g + 1 := ⟨f' - 1, by omega⟩
      rw [ht_grow] at h ⊢
      exact ihl g _ _ _ r (by omega) h
    · intro f' ht nt i r hle h
      obtain ⟨g, rfl⟩ : ∃ g, f' = g + 1 := ⟨f' - 1, by omega⟩
      rw [growLoop] at h ⊢
      by_cases h1 : i ≤ ht.mask
      · simp only [h1, if_true] at h ⊢
        by_cases h2 : (entryAt ht.entries i).is_set = true
        · simp only [h2, if_true] at h ⊢
          cases hs : ht_set f nt (entryAt ht.entries i).key (entryAt ht.entries i).value with
          | none => simp [hs] at h
          | some t =>
            rw [ihs g _ _ _ t (by omega) hs]
            rw [hs] at h
            obtain ⟨nt', c⟩ := t
            simp only at h ⊢
            exact ihl g _ _ _ r (by omega) h
        · simp only [h2, Bool.false_eq_true, if_false] at h ⊢
          exact ihl g _ _ _ r (by omega) h
      · simpa [h1] using h

theorem ht_set_mono (f f' : Nat) (ht : HashTable) (k v : Int) (r : HashTable × Nat)
    (hle : f ≤ f') (h : ht_set f ht k v = some r) : ht_set f' ht k v = some r :=
  (fuel_mono f).1 f' ht k v r hle h

theorem ht_grow_mono (f f' : Nat) (ht r : HashTable)
    (hle : f ≤ f') (h : ht_grow f ht = some r) : ht_grow f' ht = some r :=
  (fuel_mono f).2.1 f' ht r hle h

theorem ht_set_det (f f' : Nat) (ht : HashTable) (k v : Int) (r r' : HashTable × Nat)
    (h : ht_set f ht k v = some r) (h' : ht_set f' ht k v = some r') : r = r' := by
  have h1 := ht_set_mono f (max f f') ht k v r (le_max_left _ _) h
  have h2 := ht_set_mono f' (max f f') ht k v r' (le_max_right _ _) h'
  rw [h1] at h2
  exact Option.some.inj h2

theorem ht_get_mono (f f' : Nat) (ht : HashTable) (k : Int) (r : Option Int)
    (hle : f ≤ f') (h : ht_get f ht k = some r) : ht_get f' ht k = some r :=
  getProbe_mono _ _ _ f f' _ r hle h

theorem pow32_double (m : Nat) (h : Pow32 m) :
    Pow32 (((m <<< 1) ||| 1) % 4294967296) ∧ m ≤ ((m <<< 1) ||| 1) % 4294967296 := by
  obtain ⟨e, he, hm⟩ := h
  rw [shl_or_one]
  by_cases h32 : e = 32
  · subst h32
    have : m = 4294967295 := by norm_num at hm; omega
    subst this
    exact ⟨⟨32, le_refl _, by norm_num⟩, by norm_num⟩
  · have hlt : e + 1 ≤ 32 := by omega
    have h2 : 2 ^ (e + 1) ≤ 2 ^ 32 := Nat.pow_le_pow_right (by decide) hlt
    have h3 : 2 ^ (e + 1) = 2 * 2 ^ e := by rw [pow_succ]; ring
    have h4 : 2 * m + 1 < 4294967296 := by norm_num at h2; omega
    rw [Nat.mod_eq_of_lt h4]
    exact ⟨⟨e + 1, hlt, by omega⟩, by omega⟩

theorem mask_grows : ∀ f,
    (∀ ht k v r, Pow32 ht.mask → ht_set f ht k v = some r →
      Pow32 r.1.mask ∧ ht.mask ≤ r.1.mask) ∧
    (∀ ht r, Pow32 ht.mask → ht_grow f ht = some r →
      Pow32 r.mask ∧ ((ht.mask <<< 1) ||| 1) % 4294967296 ≤ r.mask) ∧
    (∀ ht nt i r, Pow32 nt.mask → growLoop f ht nt i = some r →
      Pow32 r.mask ∧ nt.mask ≤ r.mask) := by
  intro f
  induction f with
  | zero =>
    refine ⟨?_, ?_, ?_⟩
    · intro ht k v r _ h; simp [ht_set] at h
    · intro ht r _ h; simp [ht_grow] at h
    · intro ht nt i r _ h; simp [growLoop] at h
  | succ f ih =>
    obtain ⟨ihs, ihg, ihl⟩ := ih
    refine ⟨?_, ?_, ?_⟩
    · intro ht k v r hp h
      rw [ht_set] at h
      cases hpr : setProbe f ht.entries ht.mask k (startIndex ht.mask k) 0 with
      | none => simp [hpr] at h
      | some t =>
        rw [hpr] at h
        obtain ⟨idx, c, ow⟩ := t
        simp only at h
        by_cases how : ow = true
        · simp only [how, if_true, Option.some.injEq] at h
          subst h
          exact ⟨hp, le_refl _⟩
        · simp only [how, Bool.false_eq_true, if_false] at h
          split at h
          · cases hg : ht_grow f
                { entries := ht.entries.set idx ⟨true, k, v⟩,
                  size := (ht.size + 1) % 4294967296, mask := ht.mask } with
            | none => simp [hg] at h
            | some t' =>
              rw [hg] at h
              simp only [Option.some.injEq] at h
              subst h
              have := ihg { entries := ht.entries.set idx ⟨true, k, v⟩,
                            size := (ht.size + 1) % 4294967296, mask := ht.mask } t' hp hg
              exact ⟨this.1, le_trans (pow32_double _ hp).2 this.2⟩
          · simp only [Option.some.injEq] at h
            subst h
            exact ⟨hp, le_refl _⟩
    · intro ht r hp h
      rw [ht_grow] at h
      have := ihl _ _ _ r (pow32_double _ hp).1 h
      exact this
    · intro ht nt i r hp h
      rw [growLoop] at h
      by_cases h1 : i ≤ ht.mask
      · simp only [h1, if_true] at h
        by_cases h2 : (entryAt ht.entries i).is_set = true
        · simp only [h2, if_true] at h
          cases hs : ht_set f nt (entryAt ht.entries i).key (entryAt ht.entries i).value with
          | none => simp [hs] at h
          | some t =>
            rw [hs] at h
            obtain ⟨nt', c⟩ := t
            simp only at h
            have h3 := ihs _ _ _ _ hp hs
            have h4 := ihl _ _ _ r h3.1 h
            exact ⟨h4.1, le_trans h3.2 h4.2⟩
        · simp only [h2, Bool.false_eq_true, if_false] at h
          exact ihl _ _ _ r hp h
      · simp only [h1, if_false, Option.some.injEq] at h
        subst h
        exact ⟨hp, le_refl _⟩

/-! ## Insertion without growth -/

theorem wf_write (ht : HashTable) (p : Nat) (a : HashTableEntry) (sz : Nat) (h : WF ht) :
    WF { entries := ht.entries.set p a, size := sz, mask := ht.mask } := by
  refine ⟨?_, h.2⟩
  simp only [List.length_set]
  exact h.1

theorem stored_of_chain_stops (ht : HashTable) (k v : Int) (d : Nat) (hc : Chain ht)
    (hst : StopsAt ht.entries (ht.mask + 1) (startIndex ht.mask k) k d)
    (h : Stored ht k v) :
    entryAt ht.entries ((startIndex ht.mask k + d) % (ht.mask + 1)) = ⟨true, k, v⟩ := by
  obtain ⟨i, hi, he⟩ := h
  obtain ⟨d', _, hdi, hb⟩ := hc i hi (by rw [he])
  rw [he] at hdi hb
  simp only at hdi hb
  have := stops_unique _ _ _ _ d d' hst hb (by rw [hdi, he]; exact ⟨rfl, rfl⟩)
  rw [this, hdi, he]

theorem ht_set_nogrow (ht : HashTable) (k v : Int) (fuel : Nat)
    (hwf : WF ht) (hc : Chain ht) (hsz : ht.size = occupied ht.entries)
    (hroom : (ht.size + 1) * 2 ≤ ht.mask) (hm : ht.mask < 4294967296)
    (hf : ht.mask + 2 ≤ fuel) :
    ∃ ht' c, ht_set fuel ht k v = some (ht', c) ∧ WF ht' ∧ Chain ht' ∧
      ht'.size = occupied ht'.entries ∧ ht'.mask = ht.mask ∧
      (∀ k' v', Stored ht' k' v' ↔ (k' = k ∧ v' = v) ∨ (k' ≠ k ∧ Stored ht k' v')) ∧
      ht'.size ≤ ht.size + 1 ∧
      ((∀ v0, ¬ Stored ht k v0) → ht'.size = ht.size + 1) ∧
      ((∃ v0, Stored ht k v0) → ht'.size = ht.size) := by
  obtain ⟨e, hme⟩ := hwf.2
  have hfull : occupied ht.entries < ht.entries.length := by rw [hwf.1]; omega
  obtain ⟨i0, hi0, hempty⟩ := exists_empty_of_occupied_lt _ hfull
  obtain ⟨d, hd, hst⟩ := exists_stop ht.entries ht.mask (startIndex ht.mask k) i0 k
    (startIndex_le _ _ hme k) (by rw [hwf.1] at hi0; omega) hempty
  obtain ⟨g, rfl⟩ : ∃ g, fuel = g + 1 := ⟨fuel - 1, by omega⟩
  have hp : (startIndex ht.mask k + d) % (ht.mask + 1) < ht.entries.length := by
    rw [hwf.1]; exact Nat.mod_lt _ (by omega)
  have hpm : (startIndex ht.mask k + d) % (ht.mask + 1) ≤ ht.mask := by
    have := Nat.mod_lt (startIndex ht.mask k + d) (show 0 < ht.mask + 1 by omega); omega
  rw [ht_set_of_stops ht e k v d g hme hst (by omega)]
  have hocc := occupied_write ht.entries _ k v hp
  have hcontent : ∀ sz k' v',
      Stored { entries := ht.entries.set ((startIndex ht.mask k + d) % (ht.mask + 1)) ⟨true, k, v⟩,
               size := sz, mask := ht.mask } k' v'
        ↔ (k' = k ∧ v' = v) ∨ (k' ≠ k ∧ Stored ht k' v') := fun sz k' v' =>
    stored_write_iff ht _ k v sz k' v' hp hpm hst.2
      (chain_unique _ (chain_write ht k v d sz hwf hc hd hst))
  by_cases h1 : (entryAt ht.entries ((startIndex ht.mask k + d) % (ht.mask + 1))).is_set = true
  · rw [if_pos h1]
    refine ⟨_, _, rfl, wf_write _ _ _ _ hwf, chain_write ht k v d _ hwf hc hd hst, ?_, rfl,
      hcontent _, by simp, ?_, fun _ => rfl⟩
    · simp only [hocc, if_pos h1]; omega
    · intro hno
      exfalso
      apply hno (entryAt ht.entries ((startIndex ht.mask k + d) % (ht.mask + 1))).value
      refine ⟨_, hpm, ?_⟩
      have := hst.2 h1
      cases hE : entryAt ht.entries ((startIndex ht.mask k + d) % (ht.mask + 1)) with
      | mk a b c =>
        rw [hE] at h1 this
        simp only at h1 this ⊢
        rw [h1, this]
  · rw [if_neg h1]
    have hsm : (ht.size + 1) % 4294967296 = ht.size + 1 := Nat.mod_eq_of_lt (by omega)
    have hsm2 : ((ht.size + 1) * 2) % 4294967296 = (ht.size + 1) * 2 :=
      Nat.mod_eq_of_lt (by omega)
    rw [hsm, hsm2, if_neg (by omega)]
    refine ⟨_, _, rfl, wf_write _ _ _ _ hwf, chain_write ht k v d _ hwf hc hd hst, ?_, rfl,
      hcontent _, le_refl _, fun _ => rfl, ?_⟩
    · simp only [hocc, if_neg h1]; omega
    · rintro ⟨v0, hv0⟩
      have := stored_of_chain_stops ht k v0 d hc hst hv0
      rw [this] at h1
      exact absurd rfl h1

/-! ## Growth -/

theorem occupied_take_succ (es : List HashTableEntry) (i : Nat) (h : i < es.length) :
    occupied (es.take (i + 1))
      = occupied (es.take i) + (if (entryAt es i).is_set then 1 else 0) := by
  unfold occupied
  rw [List.take_succ, List.countP_append, List.getElem?_eq_getElem h, entryAt_eq_getElem es i h]
  simp [List.countP_cons]

theorem occupied_take_le (es : List HashTableEntry) (i : Nat) :
    occupied (es.take i) ≤ occupied es :=
  (List.take_sublist i es).countP_le _

theorem lastBelow_succ (es : List HashTableEntry) (i : Nat) (k v : Int) :
    LastBelow es (i + 1) k v ↔
      entryAt es i = ⟨true, k, v⟩ ∨
        (¬((entryAt es i).is_set = true ∧ (entryAt es i).key = k) ∧ LastBelow es i k v) := by
  constructor
  · rintro ⟨j, hj, he, hlast⟩
    by_cases hji : j = i
    · subst hji; exact Or.inl he
    · have hlt : j < i := by omega
      exact Or.inr ⟨hlast i hlt (by omega), j, hlt, he, fun j' h1 h2 => hlast j' h1 (by omega)⟩
  · rintro (he | ⟨hn, j, hj, he, hlast⟩)
    · exact ⟨i, by omega, he, fun j' h1 h2 => by omega⟩
    · refine ⟨j, by omega, he, fun j' h1 h2 => ?_⟩
      by_cases hji : j' = i
      · subst hji; exact hn
      · exact hlast j' h1 (by omega)

theorem lastBelow_zero (es : List HashTableEntry) (k v : Int) : ¬ LastBelow es 0 k v := by
  rintro ⟨j, hj, _⟩
  omega

theorem lastBelow_of_unique (ht : HashTable) (hu : UniqueKeys ht) (k v : Int) :
    LastBelow ht.entries (ht.mask + 1) k v ↔ Stored ht k v := by
  constructor
  · rintro ⟨j, hj, he, _⟩
    exact ⟨j, by omega, he⟩
  · rintro ⟨j, hj, he⟩
    refine ⟨j, by omega, he, fun j' h1 h2 hn => ?_⟩
    have := hu j j' hj (by omega) (by rw [he]) hn.1 (by rw [he, hn.2])
    omega

theorem growLoop_spec (ht : HashTable) (hwf : WF ht) (hocc : occupied ht.entries ≤ ht.mask)
    (hm : ht.mask < 1073741824) :
    ∀ t i nt fuel, i + t = ht.mask + 1 → GrowInv ht nt i → t + 2 * ht.mask + 4 ≤ fuel →
      ∃ r, growLoop fuel ht nt i = some r ∧ GrowInv ht r (ht.mask + 1) := by
  intro t
  induction t with
  | zero =>
    intro i nt fuel hi hinv hf
    obtain ⟨g, rfl⟩ : ∃ g, fuel = g + 1 := ⟨fuel - 1, by omega⟩
    rw [growLoop, if_neg (by omega)]
    have : i = ht.mask + 1 := by omega
    subst this
    exact ⟨nt, rfl, hinv⟩
  | succ t ih =>
    intro i nt fuel hi hinv hf
    obtain ⟨g, rfl⟩ : ∃ g, fuel = g + 1 := ⟨fuel - 1, by omega⟩
    obtain ⟨nwf, nch, nsz, nmask, nle, ncont, nuniq⟩ := hinv
    have hil : i < ht.entries.length := by rw [hwf.1]; omega
    have htk := occupied_take_succ ht.entries i hil
    have htl := occupied_take_le ht.entries (i + 1)
    rw [growLoop, if_pos (by omega)]
    by_cases h1 : (entryAt ht.entries i).is_set = true
    · rw [if_pos h1]
      rw [if_pos h1] at htk
      obtain ⟨nt', c, hset, wf', ch', sz', mask', cont', szle, sznew, _⟩ :=
        ht_set_nogrow nt (entryAt ht.entries i).key (entryAt ht.entries i).value g
          nwf nch nsz (by omega) (by omega) (by omega)
      rw [hset]
      simp only
      apply ih (i + 1) nt' g (by omega) _ (by omega)
      have hE : entryAt ht.entries i
          = ⟨true, (entryAt ht.entries i).key, (entryAt ht.entries i).value⟩ := by
        cases hE : entryAt ht.entries i with
        | mk a b c => rw [hE] at h1; simp only at h1 ⊢; rw [h1]
      refine ⟨wf', ch', sz', by rw [mask', nmask], by omega, ?_, ?_⟩
      · intro k v
        rw [cont', lastBelow_succ, ncont]
        constructor
        · rintro (⟨rfl, rfl⟩ | ⟨hne, hl⟩)
          · exact Or.inl hE
          · exact Or.inr ⟨fun hn => hne hn.2.symm, hl⟩
        · rintro (he | ⟨hn, hl⟩)
          · rw [he]; exact Or.inl ⟨rfl, rfl⟩
          · exact Or.inr ⟨fun hk => hn ⟨h1, hk.symm⟩, hl⟩
      · intro hu
        have hnot : ∀ v0, ¬ Stored nt (entryAt ht.entries i).key v0 := by
          intro v0 hs
          obtain ⟨j, hj, he, _⟩ := (ncont _ _).1 hs
          have := hu j i (by omega) (by omega) (by rw [he]) h1 (by rw [he])
          omega
        rw [sznew hnot, nuniq hu, htk]
    · rw [if_neg h1]
      rw [if_neg h1] at htk
      apply ih (i + 1) nt g (by omega) _ (by omega)
      refine ⟨nwf, nch, nsz, nmask, by omega, ?_, ?_⟩
      · intro k v
        rw [lastBelow_succ, ncont]
        constructor
        · intro hl
          exact Or.inr ⟨fun hn => h1 hn.1, hl⟩
        · rintro (he | ⟨_, hl⟩)
          · rw [he] at h1; exact absurd rfl h1
          · exact hl
      · intro hu
        have := nuniq hu
        omega

theorem chain_empty (n sz mask : Nat) :
    Chain { entries := List.replicate n zeroEntry, size := sz, mask := mask } := by
  intro i _ hset
  simp only at hset
  rw [entryAt_replicate] at hset
  simp [zeroEntry] at hset

theorem occupied_replicate (n : Nat) : occupied (List.replicate n zeroEntry) = 0 := by
  unfold occupied
  rw [List.countP_replicate]
  simp [zeroEntry]

theorem not_stored_empty (n sz mask : Nat) (k v : Int) :
    ¬ Stored { entries := List.replicate n zeroEntry, size := sz, mask := mask } k v := by
  rintro ⟨i, _, he⟩
  simp only at he
  rw [entryAt_replicate] at he
  simp [zeroEntry] at he

theorem ht_grow_spec (ht : HashTable) (hwf : WF ht) (hocc : occupied ht.entries ≤ ht.mask)
    (hm : ht.mask < 1073741824) (fuel : Nat) (hf : 3 * ht.mask + 6 ≤ fuel) :
    ∃ r, ht_grow fuel ht = some r ∧ GrowOutcome ht r := by
  obtain ⟨g, rfl⟩ : ∃ g, fuel = g + 1 := ⟨fuel - 1, by omega⟩
  rw [ht_grow, shl_or_one]
  have h1 : (2 * ht.mask + 1) % 4294967296 = 2 * ht.mask + 1 := Nat.mod_eq_of_lt (by omega)
  have h2 : (2 * ht.mask + 1 + 1) % 4294967296 = 2 * ht.mask + 1 + 1 :=
    Nat.mod_eq_of_lt (by omega)
  simp only [h1, h2]
  obtain ⟨e, he⟩ := hwf.2
  have hinv : GrowInv ht
      { entries := List.replicate (2 * ht.mask + 1 + 1) zeroEntry, size := 0,
        mask := 2 * ht.mask + 1 } 0 := by
    refine ⟨⟨by simp, e + 1, by simp only; rw [pow_succ]; omega⟩, chain_empty _ _ _, ?_, rfl,
      Nat.zero_le _, ?_, ?_⟩
    · simp only [occupied_replicate]
    · intro k v
      constructor
      · intro h; exact absurd h (not_stored_empty _ _ _ k v)
      · intro h; exact absurd h (lastBelow_zero _ k v)
    · intro _
      simp [occupied]
  obtain ⟨r, hr, rwf, rch, rsz, rmask, rle, rcont, runiq⟩ :=
    growLoop_spec ht hwf hocc hm (ht.mask + 1) 0 _ g (by omega) hinv (by omega)
  have htake : ht.entries.take (ht.mask + 1) = ht.entries :=
    List.take_of_length_le (by rw [hwf.1])
  rw [htake] at rle runiq
  exact ⟨r, hr, rwf, rch, rsz, rmask, rle, rcont, runiq⟩

/-! ## Insertion in general -/

theorem stops_exists (ht : HashTable) (hwf : WF ht) (hnf : occupied ht.entries ≤ ht.mask)
    (k : Int) :
    ∃ d, d ≤ ht.mask ∧ StopsAt ht.entries (ht.mask + 1) (startIndex ht.mask k) k d := by
  obtain ⟨e, hme⟩ := hwf.2
  have hfull : occupied ht.entries < ht.entries.length := by rw [hwf.1]; omega
  obtain ⟨i0, hi0, hempty⟩ := exists_empty_of_occupied_lt _ hfull
  exact exists_stop ht.entries ht.mask (startIndex ht.mask k) i0 k
    (startIndex_le _ _ hme k) (by rw [hwf.1] at hi0; omega) hempty

theorem sound_nf (ht : HashTable) (hs : Sound ht) : occupied ht.entries ≤ ht.mask := by
  obtain ⟨_, hocc, hsz, _, _⟩ := hs
  omega

theorem sound_stops (ht : HashTable) (hs : Sound ht) (k : Int) :
    ∃ d, d ≤ ht.mask ∧ StopsAt ht.entries (ht.mask + 1) (startIndex ht.mask k) k d :=
  stops_exists ht hs.1 (sound_nf ht hs) k

theorem pow32_of_wf (ht : HashTable) (hwf : WF ht) (hm : ht.mask < 2147483648) :
    Pow32 ht.mask := by
  obtain ⟨e, he⟩ := hwf.2
  refine ⟨e, ?_, he⟩
  by_contra hc
  have : 2 ^ 33 ≤ 2 ^ e := Nat.pow_le_pow_right (by decide) (by omega)
  norm_num at this
  omega

theorem ht_set_step (ht : HashTable) (k v : Int) (fuel : Nat) (ht' : HashTable) (c : Nat)
    (hs : Sound ht) (h : ht_set fuel ht k v = some (ht', c)) (hb : ht'.mask < 2147483648) :
    SetOutcome ht k v ht' c := by
  obtain ⟨d, hd, hst⟩ := sound_stops ht hs k
  obtain ⟨hwf, hocc, hsz, hlo, hm⟩ := hs
  obtain ⟨e, hme⟩ := hwf.2
  have hF := ht_set_mono fuel (max fuel (3 * ht.mask + 8)) ht k v _ (le_max_left _ _) h
  obtain ⟨g, hg⟩ : ∃ g, max fuel (3 * ht.mask + 8) = g + 1 :=
    ⟨max fuel (3 * ht.mask + 8) - 1, by have := le_max_right fuel (3 * ht.mask + 8); omega⟩
  have hgb : 3 * ht.mask + 7 ≤ g := by
    have := le_max_right fuel (3 * ht.mask + 8); omega
  rw [hg, ht_set_of_stops ht e k v d g hme hst (by omega)] at hF
  have hp : (startIndex ht.mask k + d) % (ht.mask + 1) < ht.entries.length := by
    rw [hwf.1]; exact Nat.mod_lt _ (by omega)
  have hsm : (ht.size + 1) % 4294967296 = ht.size + 1 := Nat.mod_eq_of_lt (by omega)
  have hsm2 : ((ht.size + 1) * 2) % 4294967296 = (ht.size + 1) * 2 :=
    Nat.mod_eq_of_lt (by omega)
  rw [hsm, hsm2] at hF
  by_cases h1 : (entryAt ht.entries ((startIndex ht.mask k + d) % (ht.mask + 1))).is_set = true
  · rw [if_pos h1] at hF
    simp only [Option.some.injEq, Prod.mk.injEq] at hF
    obtain ⟨rfl, rfl⟩ := hF
    exact ⟨hd, hst, Or.inl ⟨h1, rfl⟩⟩
  · rw [if_neg h1] at hF
    have h1' : (entryAt ht.entries ((startIndex ht.mask k + d) % (ht.mask + 1))).is_set = false := by
      simpa using h1
    by_cases hgr : (ht.size + 1) * 2 > ht.mask
    · rw [if_pos hgr] at hF
      cases hgrow : ht_grow g
          { entries := ht.entries.set ((startIndex ht.mask k + d) % (ht.mask + 1)) ⟨true, k, v⟩,
            size := ht.size + 1, mask := ht.mask } with
      | none => rw [hgrow] at hF; simp at hF
      | some r =>
        rw [hgrow] at hF
        simp only [Option.map_some', Option.some.injEq, Prod.mk.injEq] at hF
        obtain ⟨rfl, rfl⟩ := hF
        have hmg := ((mask_grows g).2.1
          { entries := ht.entries.set ((startIndex ht.mask k + d) % (ht.mask + 1)) ⟨true, k, v⟩,
            size := ht.size + 1, mask := ht.mask } r
          (pow32_of_wf ht hwf hm) hgrow).2
        simp only [shl_or_one] at hmg
        rw [Nat.mod_eq_of_lt (by omega)] at hmg
        have hm30 : ht.mask < 1073741824 := by omega
        have hoccW := occupied_write ht.entries _ k v hp
        rw [if_neg h1] at hoccW
        obtain ⟨r', hr', hout⟩ := ht_grow_spec
          { entries := ht.entries.set ((startIndex ht.mask k + d) % (ht.mask + 1)) ⟨true, k, v⟩,
            size := ht.size + 1, mask := ht.mask }
          (wf_write _ _ _ _ hwf) (by simp only; omega) hm30 g (by simp only; omega)
        rw [hgrow] at hr'
        simp only [Option.some.injEq] at hr'
        subst hr'
        exact ⟨hd, hst, Or.inr (Or.inr ⟨h1', by omega, hm30, hout⟩)⟩
    · rw [if_neg hgr] at hF
      simp only [Option.some.injEq, Prod.mk.injEq] at hF
      obtain ⟨rfl, rfl⟩ := hF
      exact ⟨hd, hst, Or.inr (Or.inl ⟨h1', by omega, rfl⟩)⟩

theorem ht_set_total (ht : HashTable) (k v : Int) (fuel : Nat) (hs : Sound ht)
    (hm30 : ht.mask < 1073741824) (hf : 3 * ht.mask + 8 ≤ fuel) :
    ∃ ht' c, ht_set fuel ht k v = some (ht', c) ∧ ht'.mask < 2147483648 := by
  obtain ⟨d, hd, hst⟩ := sound_stops ht hs k
  obtain ⟨hwf, hocc, hsz, hlo, hm⟩ := hs
  obtain ⟨e, hme⟩ := hwf.2
  obtain ⟨g, rfl⟩ : ∃ g, fuel = g + 1 := ⟨fuel - 1, by omega⟩
  rw [ht_set_of_stops ht e k v d g hme hst (by omega)]
  have hp : (startIndex ht.mask k + d) % (ht.mask + 1) < ht.entries.length := by
    rw [hwf.1]; exact Nat.mod_lt _ (by omega)
  have hsm : (ht.size + 1) % 4294967296 = ht.size + 1 := Nat.mod_eq_of_lt (by omega)
  have hsm2 : ((ht.size + 1) * 2) % 4294967296 = (ht.size + 1) * 2 :=
    Nat.mod_eq_of_lt (by omega)
  rw [hsm, hsm2]
  by_cases h1 : (entryAt ht.entries ((startIndex ht.mask k + d) % (ht.mask + 1))).is_set = true
  · rw [if_pos h1]
    exact ⟨_, _, rfl, hm⟩
  · rw [if_neg h1]
    by_cases hgr : (ht.size + 1) * 2 > ht.mask
    · rw [if_pos hgr]
      have hoccW := occupied_write ht.entries _ k v hp
      rw [if_neg h1] at hoccW
      obtain ⟨r', hr', hout⟩ := ht_grow_spec
        { entries := ht.entries.set ((startIndex ht.mask k + d) % (ht.mask + 1)) ⟨true, k, v⟩,
          size := ht.size + 1, mask := ht.mask }
        (wf_write _ _ _ _ hwf) (by simp only; omega) hm30 g (by simp only; omega)
      rw [hr']
      refine ⟨r', d, rfl, ?_⟩
      have := hout.2.2.2.1
      simp only at this
      omega
    · rw [if_neg hgr]
      exact ⟨_, _, rfl, hm⟩

theorem sound_of_outcome (ht : HashTable) (k v : Int) (ht' : HashTable) (c : Nat)
    (hs : Sound ht) (h : SetOutcome ht k v ht' c) : Sound ht' := by
  obtain ⟨hwf, hocc, hsz, hlo, hm⟩ := hs
  obtain ⟨hc, hst, hcase⟩ := h
  have hp : (startIndex ht.mask k + c) % (ht.mask + 1) < ht.entries.length := by
    rw [hwf.1]; exact Nat.mod_lt _ (by omega)
  have hoccW := occupied_write ht.entries _ k v hp
  rcases hcase with ⟨h1, rfl⟩ | ⟨h1, hroom, rfl⟩ | ⟨h1, hgr, hm30, hout⟩
  · rw [if_pos h1] at hoccW
    exact ⟨wf_write _ _ _ _ hwf, by simp only; omega, hsz, hlo, hm⟩
  · rw [if_neg (by simp [h1])] at hoccW
    exact ⟨wf_write _ _ _ _ hwf, by simp only; omega, by simp only; omega, hlo, hm⟩
  · rw [if_neg (by simp [h1])] at hoccW
    obtain ⟨rwf, _, rsz, rmask, rle, _, _⟩ := hout
    simp only at rmask rle
    exact ⟨rwf, by omega, by omega, by omega, by omega⟩

theorem sound_of_inv (ht : HashTable) (h : Inv ht) : Sound ht := by
  obtain ⟨hwf, _, hsz, h2, hlo, hm⟩ := h
  exact ⟨hwf, by omega, h2, hlo, hm⟩

theorem inv_of_outcome (ht : HashTable) (k v : Int) (ht' : HashTable) (c : Nat)
    (hi : Inv ht) (h : SetOutcome ht k v ht' c) :
    Inv ht' ∧ ∀ k' v', Stored ht' k' v' ↔ (k' = k ∧ v' = v) ∨ (k' ≠ k ∧ Stored ht k' v') := by
  have hs' := sound_of_outcome ht k v ht' c (sound_of_inv ht hi) h
  obtain ⟨hwf, hch, hsz, h2, hlo, hm⟩ := hi
  obtain ⟨hc, hst, hcase⟩ := h
  have hp : (startIndex ht.mask k + c) % (ht.mask + 1) < ht.entries.length := by
    rw [hwf.1]; exact Nat.mod_lt _ (by omega)
  have hpm : (startIndex ht.mask k + c) % (ht.mask + 1) ≤ ht.mask := by
    have := Nat.mod_lt (startIndex ht.mask k + c) (show 0 < ht.mask + 1 by omega); omega
  have hoccW := occupied_write ht.entries _ k v hp
  have hchain : ∀ sz, Chain
      { entries := ht.entries.set ((startIndex ht.mask k + c) % (ht.mask + 1)) ⟨true, k, v⟩,
        size := sz, mask := ht.mask } := fun sz => chain_write ht k v c sz hwf hch hc hst
  have hcontent : ∀ sz k' v',
      Stored { entries := ht.entries.set ((startIndex ht.mask k + c) % (ht.mask + 1)) ⟨true, k, v⟩,
               size := sz, mask := ht.mask } k' v'
        ↔ (k' = k ∧ v' = v) ∨ (k' ≠ k ∧ Stored ht k' v') := fun sz k' v' =>
    stored_write_iff ht _ k v sz k' v' hp hpm hst.2 (chain_unique _ (hchain sz))
  rcases hcase with ⟨h1, rfl⟩ | ⟨h1, hroom, rfl⟩ | ⟨h1, hgr, hm30, hout⟩
  · rw [if_pos h1] at hoccW
    exact ⟨⟨hs'.1, hchain _, by simp only; omega, hs'.2.2⟩, hcontent _⟩
  · rw [if_neg (by simp [h1])] at hoccW
    exact ⟨⟨hs'.1, hchain _, by simp only; omega, hs'.2.2⟩, hcontent _⟩
  · obtain ⟨rwf, rch, rsz, rmask, rle, rcont, _⟩ := hout
    refine ⟨⟨rwf, rch, rsz, hs'.2.2⟩, fun k' v' => ?_⟩
    rw [rcont, ← hcontent (ht.size + 1)]
    exact lastBelow_of_unique _ (chain_unique _ (hchain _)) k' v'

/-! ## Lookup -/

theorem ht_get_sound (ht : HashTable) (hwf : WF ht) (hnf : occupied ht.entries ≤ ht.mask)
    (k : Int) :
    ∃ res, (∀ fuel, ht.mask + 1 ≤ fuel → ht_get fuel ht k = some res) ∧
      (∀ v, res = some v → Stored ht k v) := by
  obtain ⟨d, hd, hst⟩ := stops_exists ht hwf hnf k
  obtain ⟨e, hme⟩ := hwf.2
  refine ⟨_, fun fuel hf => ht_get_of_stops ht e k d fuel hme hst (by omega), ?_⟩
  intro v hv
  have hpm : (startIndex ht.mask k + d) % (ht.mask + 1) ≤ ht.mask := by
    have := Nat.mod_lt (startIndex ht.mask k + d) (show 0 < ht.mask + 1 by omega); omega
  by_cases h1 : (entryAt ht.entries ((startIndex ht.mask k + d) % (ht.mask + 1))).is_set = true
  · rw [if_pos h1] at hv
    refine ⟨_, hpm, ?_⟩
    have hk := hst.2 h1
    cases hE : entryAt ht.entries ((startIndex ht.mask k + d) % (ht.mask + 1)) with
    | mk a b c =>
      rw [hE] at h1 hk hv
      simp only [Option.some.injEq] at h1 hk hv
      rw [h1, hk, hv]
  · rw [if_neg h1] at hv
    exact absurd hv (by simp)

theorem ht_get_chain (ht : HashTable) (hwf : WF ht) (hnf : occupied ht.entries ≤ ht.mask)
    (hc : Chain ht) (k : Int) :
    ∃ res, (∀ fuel, ht.mask + 1 ≤ fuel → ht_get fuel ht k = some res) ∧
      (∀ v, res = some v ↔ Stored ht k v) := by
  obtain ⟨d, hd, hst⟩ := stops_exists ht hwf hnf k
  obtain ⟨e, hme⟩ := hwf.2
  obtain ⟨res, hres, hsub⟩ := ht_get_sound ht hwf hnf k
  refine ⟨res, hres, fun v => ⟨hsub v, fun hv => ?_⟩⟩
  have h1 := hres (ht.mask + 1) (le_refl _)
  rw [ht_get_of_stops ht e k d _ hme hst (by omega),
    stored_of_chain_stops ht k v d hc hst hv] at h1
  simpa using h1.symm

/-! ## Deletion -/

theorem unsetLoop_some (ht : HashTable) (key : Int) (index : Nat) :
    ∀ fuel ht' r, unsetLoop fuel ht key index = some (ht', r) →
      ((entryAt ht.entries index).is_set = false ∧ ht' = ht ∧ r = 0) ∨
      ((entryAt ht.entries index).is_set = true ∧ (entryAt ht.entries index).key = key ∧
        ht' = { entries := ht.entries.set index
                  ⟨false, (entryAt ht.entries index).key, (entryAt ht.entries index).value⟩,
                size := ht.size, mask := ht.mask } ∧
        r = 1) := by
  intro fuel
  induction fuel with
  | zero => intro ht' r h; simp [unsetLoop] at h
  | succ f ih =>
    intro ht' r h
    rw [unsetLoop] at h
    by_cases h1 : (entryAt ht.entries index).is_set = true
    · by_cases h2 : (entryAt ht.entries index).key = key
      · rw [if_pos h1, if_pos h2] at h
        simp only [Option.some.injEq, Prod.mk.injEq] at h
        exact Or.inr ⟨h1, h2, h.1.symm, h.2.symm⟩
      · simp only [h1, h2, if_true, if_false] at h
        exact ih ht' r h
    · simp only [h1, Bool.false_eq_true, if_false, Option.some.injEq, Prod.mk.injEq] at h
      exact Or.inl ⟨by simpa using h1, h.1.symm, h.2.symm⟩

theorem unsetLoop_stuck (ht : HashTable) (key : Int) (index : Nat)
    (h1 : (entryAt ht.entries index).is_set = true)
    (h2 : (entryAt ht.entries index).key ≠ key) :
    ∀ fuel, unsetLoop fuel ht key index = none := by
  intro fuel
  induction fuel with
  | zero => rfl
  | succ f ih => rw [unsetLoop, if_pos h1, if_neg h2]; exact ih

theorem sound_of_unset (ht : HashTable) (k : Int) (fuel : Nat) (ht' : HashTable) (r : Int)
    (hs : Sound ht) (h : ht_unset fuel ht k = some (ht', r)) : Sound ht' := by
  rcases unsetLoop_some ht k _ fuel ht' r h with ⟨_, rfl, _⟩ | ⟨h1, _, rfl, _⟩
  · exact hs
  · obtain ⟨hwf, hocc, hrest⟩ := hs
    have := occupied_clear ht.entries (startIndex ht.mask k)
      ⟨false, (entryAt ht.entries (startIndex ht.mask k)).key,
        (entryAt ht.entries (startIndex ht.mask k)).value⟩
      (lt_length_of_is_set _ _ h1) rfl h1
    exact ⟨wf_write _ _ _ _ hwf, by simp only; omega, hrest⟩

theorem stored_of_unset (ht : HashTable) (k : Int) (fuel : Nat) (ht' : HashTable) (r : Int)
    (h : ht_unset fuel ht k = some (ht', r)) (k' v' : Int) (hst : Stored ht' k' v') :
    Stored ht k' v' := by
  rcases unsetLoop_some ht k _ fuel ht' r h with ⟨_, rfl, _⟩ | ⟨h1, _, rfl, _⟩
  · exact hst
  · obtain ⟨i, hi, he⟩ := hst
    simp only at hi he
    by_cases hip : startIndex ht.mask k = i
    · subst hip
      rw [entryAt_set_self _ _ _ (lt_length_of_is_set _ _ h1)] at he
      simp at he
    · rw [entryAt_set_other _ _ _ _ hip] at he
      exact ⟨i, hi, he⟩

/-! ## Reachable tables -/

theorem inv_init : Inv ht_init := by
  refine ⟨⟨by simp only [ht_init, List.length_replicate], 12, rfl⟩, chain_empty _ _ _, ?_, ?_,
    ?_, ?_⟩
  · simp only [ht_init, occupied_replicate]
  · exact Nat.zero_le _
  · exact Nat.le_refl _
  · show 4095 < 2147483648
    omega

theorem reach_sound (ops : List Op) (ht : HashTable) (h : Reach ops ht) : Sound ht := by
  induction h with
  | init => exact sound_of_inv _ inv_init
  | set fuel k v ht' c _ hset hb ih =>
    exact sound_of_outcome _ k v ht' c ih (ht_set_step _ k v fuel ht' c ih hset hb)
  | unset fuel k ht' r _ hun ih => exact sound_of_unset _ k fuel ht' r ih hun

theorem reach_inv (ops : List Op) (ht : HashTable) (h : Reach ops ht)
    (hno : ∀ k, Op.unset k ∉ ops) :
    Inv ht ∧ ∀ k v, Stored ht k v ↔ lastSet ops k = some v := by
  induction h with
  | init =>
    refine ⟨inv_init, fun k v => ?_⟩
    simp only [lastSet]
    constructor
    · intro hs; exact absurd hs (not_stored_empty _ _ _ k v)
    · intro hs; exact absurd hs (by simp)
  | @set ops ht fuel k v ht' c _ hset hb ih =>
    obtain ⟨hinv, hcont⟩ := ih (fun k' hk => hno k' (List.mem_cons_of_mem _ hk))
    have hout := ht_set_step _ k v fuel ht' c (sound_of_inv _ hinv) hset hb
    obtain ⟨hinv', hcont'⟩ := inv_of_outcome _ k v ht' c hinv hout
    refine ⟨hinv', fun k' v' => ?_⟩
    rw [hcont', lastSet]
    by_cases hk : k = k'
    · subst hk; simp [eq_comm]
    · have hk' : k' ≠ k := fun h => hk h.symm
      simp [hk, hk', hcont]
  | unset fuel k ht' r _ _ _ => exact absurd (List.mem_cons_self _ _) (hno k)

theorem stored_of_outcome (ht : HashTable) (k v : Int) (ht' : HashTable) (c : Nat)
    (hwf : WF ht) (h : SetOutcome ht k v ht' c) (k' v' : Int) (hst : Stored ht' k' v') :
    (k' = k ∧ v' = v) ∨ Stored ht k' v' := by
  obtain ⟨hc, _, hcase⟩ := h
  have hp : (startIndex ht.mask k + c) % (ht.mask + 1) < ht.entries.length := by
    rw [hwf.1]; exact Nat.mod_lt _ (by omega)
  rcases hcase with ⟨_, rfl⟩ | ⟨_, _, rfl⟩ | ⟨_, _, _, hout⟩
  · exact stored_write_sub ht _ k v _ k' v' hp hst
  · exact stored_write_sub ht _ k v _ k' v' hp hst
  · obtain ⟨j, hj, he, _⟩ := (hout.2.2.2.2.2.1 k' v').1 hst
    exact stored_write_sub ht _ k v (ht.size + 1) k' v' hp ⟨j, by simp only at hj ⊢; omega, he⟩

theorem reach_keys (ops : List Op) (ht : HashTable) (h : Reach ops ht) :
    ∀ k v, Stored ht k v → ∃ v', Op.set k v' ∈ ops := by
  induction h with
  | init => intro k v hs; exact absurd hs (not_stored_empty _ _ _ k v)
  | @set ops ht fuel k v ht' c hr hset hb ih =>
    intro k' v' hs
    have hsound := reach_sound _ _ hr
    rcases stored_of_outcome _ k v ht' c hsound.1
        (ht_set_step _ k v fuel ht' c hsound hset hb) k' v' hs with ⟨rfl, _⟩ | h1
    · exact ⟨v, List.mem_cons_self _ _⟩
    · obtain ⟨v'', hv⟩ := ih k' v' h1
      exact ⟨v'', List.mem_cons_of_mem _ hv⟩
  | unset fuel k ht' r _ hun ih =>
    intro k' v' hs
    obtain ⟨v'', hv⟩ := ih k' v' (stored_of_unset _ k fuel ht' r hun k' v' hs)
    exact ⟨v'', List.mem_cons_of_mem _ hv⟩

theorem lastBelow_exists (es : List HashTableEntry) (k : Int) :
    ∀ i, (∃ j, j < i ∧ (entryAt es j).is_set = true ∧ (entryAt es j).key = k) →
      ∃ v, LastBelow es i k v := by
  intro i
  induction i with
  | zero => rintro ⟨j, hj, _⟩; omega
  | succ i ih =>
    rintro ⟨j, hj, hs, hk⟩
    by_cases hi : (entryAt es i).is_set = true ∧ (entryAt es i).key = k
    · refine ⟨(entryAt es i).value, (lastBelow_succ es i k _).2 (Or.inl ?_)⟩
      cases hE : entryAt es i with
      | mk a b c => rw [hE] at hi; simp only at hi ⊢; rw [hi.1, hi.2]
    · have hji : j < i := by
        rcases Nat.lt_or_ge j i with h | h
        · exact h
        · have : j = i := by omega
          subst this
          exact absurd ⟨hs, hk⟩ hi
      obtain ⟨v, hv⟩ := ih ⟨j, hji, hs, hk⟩
      exact ⟨v, (lastBelow_succ es i k v).2 (Or.inr ⟨hi, hv⟩)⟩

/-- After `ht_set ht k v` the key is found by probing: the probe for `k` in the
result stops at an occupied slot holding `k`. -/
theorem found_of_outcome (ht : HashTable) (k v : Int) (ht' : HashTable) (c : Nat)
    (hs : Sound ht) (h : SetOutcome ht k v ht' c) :
    ∃ d v', d ≤ ht'.mask ∧
      StopsAt ht'.entries (ht'.mask + 1) (startIndex ht'.mask k) k d ∧
      entryAt ht'.entries ((startIndex ht'.mask k + d) % (ht'.mask + 1)) = ⟨true, k, v'⟩ := by
  have hs' := sound_of_outcome ht k v ht' c hs h
  obtain ⟨hwf, _⟩ := hs
  obtain ⟨hc, hst, hcase⟩ := h
  have hp : (startIndex ht.mask k + c) % (ht.mask + 1) < ht.entries.length := by
    rw [hwf.1]; exact Nat.mod_lt _ (by omega)
  have hpm : (startIndex ht.mask k + c) % (ht.mask + 1) ≤ ht.mask := by
    have := Nat.mod_lt (startIndex ht.mask k + c) (show 0 < ht.mask + 1 by omega); omega
  rcases hcase with ⟨_, rfl⟩ | ⟨_, _, rfl⟩ | ⟨_, _, _, hout⟩
  · exact ⟨c, v, hc, stops_write _ _ _ k v c (by omega) hwf.1 hst, entryAt_set_self _ _ _ hp⟩
  · exact ⟨c, v, hc, stops_write _ _ _ k v c (by omega) hwf.1 hst, entryAt_set_self _ _ _ hp⟩
  · obtain ⟨rwf, rch, _, _, _, rcont, _⟩ := hout
    obtain ⟨v', hv'⟩ := lastBelow_exists
      (ht.entries.set ((startIndex ht.mask k + c) % (ht.mask + 1)) ⟨true, k, v⟩) k
      (ht.mask + 1) ⟨(startIndex ht.mask k + c) % (ht.mask + 1), by omega,
        by rw [entryAt_set_self _ _ _ hp], by rw [entryAt_set_self _ _ _ hp]⟩
    have hsto : Stored ht' k v' := (rcont k v').2 hv'
    obtain ⟨d, hd, hst'⟩ := sound_stops ht' hs' k
    exact ⟨d, v', hd, hst', stored_of_chain_stops ht' k v' d rch hst' hsto⟩

theorem exists_empty_iff (es : List HashTableEntry) :
    (∃ i, i < es.length ∧ (entryAt es i).is_set = false) ↔ occupied es < es.length := by
  constructor
  · rintro ⟨i, hi, he⟩
    have hle : occupied es ≤ es.length := List.countP_le_length _
    rcases Nat.lt_or_ge (occupied es) es.length with h | h
    · exact h
    · have heq : List.countP (fun e : HashTableEntry => e.is_set) es = es.length := by
        unfold occupied at h hle; omega
      have := (List.countP_eq_length (p := fun e : HashTableEntry => e.is_set)).1 heq es[i]
        (List.getElem_mem _)
      rw [entryAt_eq_getElem es i hi] at he
      rw [he] at this
      exact absurd this (by decide)
  · exact exists_empty_of_occupied_lt es

/-! ## Sample tables -/

theorem sample_set : ht_set 2 ht_init 5 7 = some (sampleTable, 0) := by decide!

theorem sample_reach : Reach [Op.set 5 7] sampleTable :=
  Reach.set 2 5 7 sampleTable 0 Reach.init sample_set (by decide)

theorem sample_unset : ht_unset 1 sampleTable 5 = some (sampleCleared, 1) := by decide!

theorem collideA_reach : Reach [Op.set 0 0] collideA :=
  Reach.set 2 0 0 collideA 0 Reach.init (by decide!) (by decide)

theorem collideB_reach : Reach [Op.set 4095 1, Op.set 0 0] collideB :=
  Reach.set 3 4095 1 collideB 1 collideA_reach (by decide!) (by decide)

theorem collideC_reach : Reach [Op.set 8191 2, Op.set 4095 1, Op.set 0 0] collideC :=
  Reach.set 4 8191 2 collideC 2 collideB_reach (by decide!) (by decide)

theorem deletedB_reach : Reach [Op.unset 0, Op.set 4095 1, Op.set 0 0] deletedB :=
  Reach.unset 1 0 deletedB 1 collideB_reach (by decide!)

theorem ht_get_empty_start (ht : HashTable) (k : Int)
    (h : (entryAt ht.entries (startIndex ht.mask k)).is_set = false) :
    ∀ f, 1 ≤ f → ht_get f ht k = some none := by
  intro f hf
  obtain ⟨g, rfl⟩ : ∃ g, f = g + 1 := ⟨f - 1, by omega⟩
  simp only [ht_get, getProbe, h, Bool.false_eq_true, if_false]

/-! ## Runs of insertions without collision -/

theorem freeHomes_sound (mask : Nat) :
    ∀ ks used, freeHomes mask ks used = true →
      (ks.map (startIndex mask)).Nodup ∧ ∀ k ∈ ks, used.testBit (startIndex mask k) = false := by
  intro ks
  induction ks with
  | nil => intro used _; exact ⟨List.nodup_nil, fun k hk => absurd hk (List.not_mem_nil _)⟩
  | cons k ks ih =>
    intro used h
    simp only [freeHomes, Bool.and_eq_true, Bool.not_eq_true'] at h
    obtain ⟨hnd, hfree⟩ := ih _ h.2
    have hne : ∀ k' ∈ ks, startIndex mask k' ≠ startIndex mask k := by
      intro k' hk' heq
      have := hfree k' hk'
      rw [Nat.testBit_or, heq, Nat.one_shiftLeft, Nat.testBit_two_pow_self] at this
      simp at this
    refine ⟨?_, ?_⟩
    · rw [List.map_cons, List.nodup_cons]
      refine ⟨?_, hnd⟩
      intro hmem
      obtain ⟨k', hk', heq⟩ := List.mem_map.1 hmem
      exact hne k' hk' heq
    · intro k' hk'
      rcases List.mem_cons.1 hk' with rfl | hk''
      · exact h.1
      · have := hfree k' hk''
        rw [Nat.testBit_or] at this
        simp only [Bool.or_eq_false_iff] at this
        exact this.1

theorem add_zero_mod (a m : Nat) (h : a ≤ m) : (a + 0) % (m + 1) = a := by
  rw [Nat.add_zero]
  exact Nat.mod_eq_of_lt (by omega)

theorem fill_reach (ks : List Int) :
    ∀ ops ht, Reach ops ht → (ks.map (startIndex ht.mask)).Nodup →
      (∀ k ∈ ks, (entryAt ht.entries (startIndex ht.mask k)).is_set = false) →
      (ht.size + ks.length) * 2 ≤ ht.mask →
      ∃ ht', Reach ((ks.map (fun k => Op.set k k)).reverse ++ ops) ht' ∧
        ht'.mask = ht.mask ∧ ht'.size = ht.size + ks.length ∧
        ∀ i, (i ∉ ks.map (startIndex ht.mask) → entryAt ht'.entries i = entryAt ht.entries i) ∧
          (entryAt ht'.entries i = entryAt ht.entries i ∨
            ∃ k ∈ ks, entryAt ht'.entries i = ⟨true, k, k⟩) := by
  induction ks with
  | nil =>
    intro ops ht hr _ _ _
    exact ⟨ht, by simpa using hr, rfl, by simp, fun i => ⟨fun _ => rfl, Or.inl rfl⟩⟩
  | cons k ks ih =>
    intro ops ht hr hnd hfree hsz
    have hs := reach_sound ops ht hr
    obtain ⟨hwf, hocc, _, hlo, hm⟩ := hs
    obtain ⟨e, hme⟩ := hwf.2
    have hh := startIndex_le ht.mask e hme k
    have hmod := add_zero_mod (startIndex ht.mask k) ht.mask hh
    have hk0 := hfree k (List.mem_cons_self _ _)
    have hst : StopsAt ht.entries (ht.mask + 1) (startIndex ht.mask k) k 0 := by
      refine ⟨fun j hj => absurd hj (Nat.not_lt_zero _), fun hset => ?_⟩
      rw [hmod, hk0] at hset
      exact absurd hset (by decide)
    have hset := ht_set_of_stops ht e k k 0 1 hme hst (by omega)
    simp only [List.length_cons] at hsz
    rw [hmod, hk0, Nat.mod_eq_of_lt (show ht.size + 1 < 4294967296 by omega),
      Nat.mod_eq_of_lt (show (ht.size + 1) * 2 < 4294967296 by omega)] at hset
    simp only [Bool.false_eq_true, if_false] at hset
    rw [if_neg (by omega)] at hset
    have hr' := Reach.set 2 k k _ 0 hr hset hm
    rw [List.map_cons, List.nodup_cons] at hnd
    obtain ⟨ht', hreach, hmask, hsize, hent⟩ := ih _ _ hr' hnd.2
      (by
        intro k' hk'
        have hne : startIndex ht.mask k ≠ startIndex ht.mask k' := by
          intro heq
          apply hnd.1
          rw [heq]
          exact List.mem_map_of_mem _ hk'
        simp only
        rw [entryAt_set_other _ _ _ _ hne]
        exact hfree k' (List.mem_cons_of_mem _ hk'))
      (by simp only; omega)
    simp only at hmask hsize hent
    refine ⟨ht', ?_, hmask, by simp only [List.length_cons]; omega, fun i => ⟨?_, ?_⟩⟩
    · simpa [List.map_cons, List.reverse_cons, List.append_assoc] using hreach
    · intro hi
      rw [List.map_cons, List.mem_cons, not_or] at hi
      rw [(hent i).1 hi.2, entryAt_set_other _ _ _ _ (fun h => hi.1 h.symm)]
    · rcases (hent i).2 with h1 | ⟨k', hk', h1⟩
      · by_cases hi : startIndex ht.mask k = i
        · subst hi
          rw [entryAt_set_self _ _ _ (by rw [hwf.1]; omega)] at h1
          exact Or.inr ⟨k, List.mem_cons_self _ _, h1⟩
        · rw [entryAt_set_other _ _ _ _ hi] at h1
          exact Or.inl h1
      · exact Or.inr ⟨k', List.mem_cons_of_mem _ hk', h1⟩

theorem deletedB_entry (i : Nat) (hi : i ≠ 1366) :
    (entryAt deletedB.entries i).is_set = false := by
  unfold deletedB
  simp only
  by_cases h : 1365 = i
  · subst h
    rw [entryAt_set_self _ _ _ (by simp only [List.length_set, List.length_replicate]; omega)]
  · rw [entryAt_set_other _ _ _ _ h, entryAt_set_other _ _ _ _ (fun h' => hi h'.symm),
      entryAt_set_other _ _ _ _ h, entryAt_replicate]
    rfl

theorem fillKeys_ne (k : Int) (hk : k ∈ fillKeys) : k ≠ 4095 := by
  simp only [fillKeys, List.mem_map, List.mem_filter, List.mem_range] at hk
  obtain ⟨a, ⟨ha, _⟩, rfl⟩ := hk
  simp only [Int.ofNat_eq_coe]
  omega

theorem fillKeys_homes :
    (fillKeys.map (startIndex 4095)).Nodup ∧
      ∀ k ∈ fillKeys, startIndex 4095 k ≠ 1365 ∧ startIndex 4095 k ≠ 1366 := by
  have hcheck : freeHomes 4095 fillKeys ((1 <<< 1365) ||| (1 <<< 1366)) = true := by decide!
  obtain ⟨hnd, hfree⟩ := freeHomes_sound 4095 _ _ hcheck
  refine ⟨hnd, fun k hk => ⟨fun h => ?_, fun h => ?_⟩⟩
  · have := hfree k hk
    rw [h] at this
    exact absurd this (by decide!)
  · have := hfree k hk
    rw [h] at this
    exact absurd this (by decide!)

/-! ## Capacity, deletion and probe reachability -/

theorem twelve_le_of_pow (e mask : Nat) (h : mask + 1 = 2 ^ e) (hlo : 4095 ≤ mask) : 12 ≤ e := by
  by_contra hc
  have : 2 ^ e ≤ 2 ^ 11 := Nat.pow_le_pow_right (by decide) (by omega)
  norm_num at this
  omega

theorem ht_get_none_iff_stops (ht : HashTable) (e : Nat) (k : Int) (d : Nat)
    (hm : ht.mask + 1 = 2 ^ e) (hd : d ≤ ht.mask)
    (hst : StopsAt ht.entries (ht.mask + 1) (startIndex ht.mask k) k d) :
    (∀ f, ht.mask + 1 ≤ f → ht_get f ht k = some none) ↔
      (entryAt ht.entries ((startIndex ht.mask k + d) % (ht.mask + 1))).is_set = false := by
  constructor
  · intro h
    have h1 := h (ht.mask + 1) (le_refl _)
    rw [ht_get_of_stops ht e k d _ hm hst (by omega)] at h1
    by_cases hs : (entryAt ht.entries ((startIndex ht.mask k + d) % (ht.mask + 1))).is_set = true
    · rw [if_pos hs] at h1
      simp at h1
    · simpa using hs
  · intro h f hf
    rw [ht_get_of_stops ht e k d _ hm hst (by omega), h]
    simp

theorem ht_unset_empty (ht : HashTable) (key : Int)
    (h : (entryAt ht.entries (startIndex ht.mask key)).is_set = false) :
    ∀ fuel, 1 ≤ fuel → ht_unset fuel ht key = some (ht, 0) := by
  intro fuel hf
  obtain ⟨g, rfl⟩ : ∃ g, fuel = g + 1 := ⟨fuel - 1, by omega⟩
  simp only [ht_unset, unsetLoop, h, Bool.false_eq_true, if_false]

theorem ht_unset_hit (ht : HashTable) (key : Int)
    (h1 : (entryAt ht.entries (startIndex ht.mask key)).is_set = true)
    (h2 : (entryAt ht.entries (startIndex ht.mask key)).key = key) :
    ∀ fuel, 1 ≤ fuel → ht_unset fuel ht key =
      some ({ entries := ht.entries.set (startIndex ht.mask key)
                ⟨false, (entryAt ht.entries (startIndex ht.mask key)).key,
                  (entryAt ht.entries (startIndex ht.mask key)).value⟩,
              size := ht.size, mask := ht.mask }, 1) := by
  intro fuel hf
  obtain ⟨g, rfl⟩ : ∃ g, fuel = g + 1 := ⟨fuel - 1, by omega⟩
  rw [ht_unset, unsetLoop, if_pos h1, if_pos h2]

theorem chain_of_outcome (ht : HashTable) (k v : Int) (ht' : HashTable) (c : Nat)
    (hs : Sound ht) (hch : Chain ht) (h : SetOutcome ht k v ht' c) : Chain ht' := by
  obtain ⟨hc, hst, hcase⟩ := h
  rcases hcase with ⟨_, rfl⟩ | ⟨_, _, rfl⟩ | ⟨_, _, _, hout⟩
  · exact chain_write ht k v c _ hs.1 hch hc hst
  · exact chain_write ht k v c _ hs.1 hch hc hst
  · exact hout.2.1

theorem deletedB_not_chain : ¬ Chain deletedB := by
  intro hc
  obtain ⟨d, hd, hdi, hb⟩ := hc 1366 (by decide) (by decide!)
  have hk : (entryAt deletedB.entries 1366).key = 4095 := by decide!
  have hm : deletedB.mask = 4095 := rfl
  have hst : startIndex 4095 4095 = 1365 := by decide!
  rw [hk, hm, hst] at hdi hb
  have hd1 : d = 1 := cyc_inj 4096 1365 d 1 (by omega) (by decide) (by rw [hdi])
  subst hd1
  have h0 := (hb 0 (by decide)).1
  have e0 : (1365 + 0) % (4095 + 1) = 1365 := by decide
  rw [e0, deletedB_entry 1365 (by decide)] at h0
  exact absurd h0 (by decide)

/-! ## Determinism and the end-to-end scenario -/

theorem reach_det (ops : List Op) (ht : HashTable) (h : Reach ops ht) :
    ∀ ht', Reach ops ht' → ht = ht' := by
  induction h with
  | init => intro ht' h'; cases h'; rfl
  | set fuel k v ht1 c _ hset _ ih =>
    intro ht' h'
    cases h' with
    | set fuel' _ _ _ c' hr' hset' _ =>
      have := ih _ hr'
      subst this
      have := ht_set_det _ _ _ _ _ _ _ hset hset'
      exact (Prod.mk.inj this).1
  | unset fuel k ht1 r _ hun ih =>
    intro ht' h'
    cases h' with
    | unset fuel' _ _ r' hr' hun' =>
      have := ih _ hr'
      subst this
      rcases unsetLoop_some _ k _ fuel ht1 r hun with ⟨a1, rfl, _⟩ | ⟨a1, _, rfl, _⟩ <;>
        rcases unsetLoop_some _ k _ fuel' ht' r' hun' with ⟨b1, rfl, _⟩ | ⟨b1, _, rfl, _⟩
      · rfl
      · rw [a1] at b1; exact absurd b1 (by decide)
      · rw [a1] at b1; exact absurd b1 (by decide)
      · rfl

theorem fill_reach_homes (ks : List Int) :
    ∀ ops ht, Reach ops ht → (ks.map (startIndex ht.mask)).Nodup →
      (∀ k ∈ ks, (entryAt ht.entries (startIndex ht.mask k)).is_set = false) →
      (ht.size + ks.length) * 2 ≤ ht.mask →
      ∃ ht', Reach ((ks.map (fun k => Op.set k k)).reverse ++ ops) ht' ∧
        ht'.mask = ht.mask ∧ ht'.size = ht.size + ks.length ∧
        (∀ i, i ∉ ks.map (startIndex ht.mask) → entryAt ht'.entries i = entryAt ht.entries i) ∧
        (∀ k ∈ ks, entryAt ht'.entries (startIndex ht.mask k) = ⟨true, k, k⟩) := by
  induction ks with
  | nil =>
    intro ops ht hr _ _ _
    exact ⟨ht, by simpa using hr, rfl, by simp, fun i _ => rfl,
      fun k hk => absurd hk (List.not_mem_nil _)⟩
  | cons k ks ih =>
    intro ops ht hr hnd hfree hsz
    have hs := reach_sound ops ht hr
    obtain ⟨hwf, hocc, _, hlo, hm⟩ := hs
    obtain ⟨e, hme⟩ := hwf.2
    have hh := startIndex_le ht.mask e hme k
    have hmod := add_zero_mod (startIndex ht.mask k) ht.mask hh
    have hk0 := hfree k (List.mem_cons_self _ _)
    have hst : StopsAt ht.entries (ht.mask + 1) (startIndex ht.mask k) k 0 := by
      refine ⟨fun j hj => absurd hj (Nat.not_lt_zero _), fun hset => ?_⟩
      rw [hmod, hk0] at hset
      exact absurd hset (by decide)
    have hset := ht_set_of_stops ht e k k 0 1 hme hst (by omega)
    simp only [List.length_cons] at hsz
    rw [hmod, hk0, Nat.mod_eq_of_lt (show ht.size + 1 < 4294967296 by omega),
      Nat.mod_eq_of_lt (show (ht.size + 1) * 2 < 4294967296 by omega)] at hset
    simp only [Bool.false_eq_true, if_false] at hset
    rw [if_neg (by omega)] at hset
    have hr' := Reach.set 2 k k _ 0 hr hset hm
    rw [List.map_cons, List.nodup_cons] at hnd
    have hne : ∀ k' ∈ ks, startIndex ht.mask k ≠ startIndex ht.mask k' := by
      intro k' hk' heq
      apply hnd.1
      rw [heq]
      exact List.mem_map_of_mem _ hk'
    obtain ⟨ht', hreach, hmask, hsize, hout, hin⟩ := ih _ _ hr' hnd.2
      (by
        intro k' hk'
        simp only
        rw [entryAt_set_other _ _ _ _ (hne k' hk')]
        exact hfree k' (List.mem_cons_of_mem _ hk'))
      (by simp only; omega)
    simp only at hmask hsize hout hin
    refine ⟨ht', ?_, hmask, by simp only [List.length_cons]; omega, fun i hi => ?_,
      fun k' hk' => ?_⟩
    · simpa [List.map_cons, List.reverse_cons, List.append_assoc] using hreach
    · rw [List.map_cons, List.mem_cons, not_or] at hi
      rw [hout i hi.2, entryAt_set_other _ _ _ _ (fun h => hi.1 h.symm)]
    · rcases List.mem_cons.1 hk' with rfl | hk''
      · rw [hout _ hnd.1, entryAt_set_self _ _ _ (by rw [hwf.1]; omega)]
      · exact hin k' hk''

theorem ht_get_hit_start (ht : HashTable) (k v : Int)
    (h : entryAt ht.entries (startIndex ht.mask k) = ⟨true, k, v⟩) :
    ∀ f, 1 ≤ f → ht_get f ht k = some (some v) := by
  intro f hf
  obtain ⟨g, rfl⟩ : ∃ g, f = g + 1 := ⟨f - 1, by omega⟩
  simp only [ht_get, getProbe, h, if_true]

theorem scenario_homes : (scenarioKeys.map (startIndex 4095)).Nodup :=
  (freeHomes_sound 4095 scenarioKeys 0 (by decide!)).1

/-! ## Runs of colliding keys -/

theorem stops_unique2 (es : List HashTableEntry) (n s : Nat) (k : Int) (d d' : Nat)
    (h : StopsAt es n s k d) (h' : StopsAt es n s k d') : d = d' := by
  rcases Nat.lt_trichotomy d d' with hlt | heq | hgt
  · have := h'.1 d hlt
    exact absurd (h.2 this.1) this.2
  · exact heq
  · have := h.1 d' hgt
    exact absurd (h'.2 this.1) this.2

theorem collide_run (s fuel : Nat) (hf : 12293 ≤ fuel) :
    ∀ (rest : List (Int × Int)) (placed : List Int) (ht : HashTable),
      ht.mask = 4095 → Sound ht → ht.size = placed.length →
      (∀ i, i < placed.length →
        (entryAt ht.entries ((s + i) % 4096)).is_set = true ∧
          (entryAt ht.entries ((s + i) % 4096)).key ∈ placed) →
      (∀ i, placed.length ≤ i → i < 4096 →
        (entryAt ht.entries ((s + i) % 4096)).is_set = false) →
      (∀ p ∈ rest, startIndex 4095 p.1 = s) → (∀ p ∈ rest, p.1 ∉ placed) →
      (rest.map (fun p => p.1)).Nodup → placed.length + rest.length ≤ 2048 →
      ∃ ht', runSets fuel ht rest
        = some (ht', (List.range rest.length).map (fun j => j + placed.length)) := by
  intro rest
  induction rest with
  | nil => intro placed ht _ _ _ _ _ _ _ _ _; exact ⟨ht, rfl⟩
  | cons p rest ih =>
    obtain ⟨k, v⟩ := p
    intro placed ht hm hs hsz hocc hfree hstart hfresh hnd hlen
    simp only [List.length_cons] at hlen
    have hsk : startIndex ht.mask k = s := by
      rw [hm]; exact hstart (k, v) (List.mem_cons_self _ _)
    have hkp : k ∉ placed := hfresh (k, v) (List.mem_cons_self _ _)
    have hst : StopsAt ht.entries (ht.mask + 1) (startIndex ht.mask k) k placed.length := by
      rw [hsk, hm]
      refine ⟨fun i hi => ?_, fun hset => ?_⟩
      · have := hocc i hi
        exact ⟨this.1, fun heq => hkp (heq ▸ this.2)⟩
      · rw [show 4095 + 1 = 4096 from rfl, hfree placed.length (le_refl _) (by omega)] at hset
        exact absurd hset (by decide)
    obtain ⟨ht1, c, hset, hb⟩ := ht_set_total ht k v fuel hs (by omega) (by omega)
    obtain ⟨hc, hst', hcase⟩ := ht_set_step ht k v fuel ht1 c hs hset hb
    have hs1 := sound_of_outcome ht k v ht1 c hs ⟨hc, hst', hcase⟩
    have hcj : c = placed.length := stops_unique2 _ _ _ _ _ _ hst' hst
    subst hcj
    have hp : (startIndex ht.mask k + placed.length) % (ht.mask + 1)
        = (s + placed.length) % 4096 := by rw [hsk, hm]
    rw [hp] at hcase
    have hplen : (s + placed.length) % 4096 < ht.entries.length := by
      rw [hs.1.1, hm]; exact Nat.mod_lt _ (by decide)
    rw [List.map_cons, List.nodup_cons] at hnd
    simp only [runSets, hset]
    rcases hcase with ⟨h1, _⟩ | ⟨_, _, rfl⟩ | ⟨_, hgr, _, _⟩
    · rw [hfree placed.length (le_refl _) (by omega)] at h1
      exact absurd h1 (by decide)
    · obtain ⟨ht', hrun⟩ := ih (k :: placed)
        { entries := ht.entries.set ((s + placed.length) % 4096) ⟨true, k, v⟩,
          size := ht.size + 1, mask := ht.mask }
        hm hs1 (by simp only [List.length_cons]; omega)
        (by
          intro i hi
          simp only [List.length_cons] at hi
          simp only
          by_cases hij : i = placed.length
          · subst hij
            rw [entryAt_set_self _ _ _ hplen]
            exact ⟨rfl, List.mem_cons_self _ _⟩
          · have hne : (s + placed.length) % 4096 ≠ (s + i) % 4096 := fun h =>
              hij (cyc_inj 4096 s _ _ (by omega) (by omega) h).symm
            rw [entryAt_set_other _ _ _ _ hne]
            have := hocc i (by omega)
            exact ⟨this.1, List.mem_cons_of_mem _ this.2⟩)
        (by
          intro i hi hi2
          simp only [List.length_cons] at hi
          simp only
          have hne : (s + placed.length) % 4096 ≠ (s + i) % 4096 := fun h => by
            have := cyc_inj 4096 s _ _ (by omega) hi2 h
            omega
          rw [entryAt_set_other _ _ _ _ hne]
          exact hfree i (by omega) hi2)
        (fun p hp => hstart p (List.mem_cons_of_mem _ hp))
        (by
          intro p hp hmem
          rcases List.mem_cons.1 hmem with h | h
          · exact hnd.1 (List.mem_map.2 ⟨p, hp, h⟩)
          · exact hfresh p (List.mem_cons_of_mem _ hp) h)
        hnd.2 (by simp only [List.length_cons]; omega)
      rw [hrun]
      refine ⟨ht', ?_⟩
      simp only [List.length_cons, List.range_succ_eq_map, List.map_cons, List.map_map,
        Nat.zero_add, Option.some.injEq, Prod.mk.injEq, List.cons.injEq, true_and]
      apply List.map_congr_left
      intro a _
      simp only [Function.comp]
      omega
    · have hr0 : rest = [] := by
        apply List.eq_nil_of_length_eq_zero
        rw [hsz, hm] at hgr
        omega
      subst hr0
      exact ⟨ht1, by simp [runSets, List.range_succ_eq_map]⟩

/-! ## Probe indices -/

theorem toI32_of_lt (u : Nat) (h : u < 2147483648) : toI32 u = (u : Int) := by
  unfold toI32
  rw [if_pos h]

theorem probeIndex_le (mask : Nat) (key : Int) : ∀ j, probeIndex mask key j ≤ mask := by
  intro j
  cases j with
  | zero => exact Nat.and_le_right
  | succ j => exact Nat.and_le_right

theorem setProbe_index (es : List HashTableEntry) (mask : Nat) (key : Int) :
    ∀ fuel j c0 i c ow, setProbe fuel es mask key (probeIndex mask key j) c0 = some (i, c, ow) →
      c0 ≤ c ∧ i = probeIndex mask key (j + (c - c0)) := by
  intro fuel
  induction fuel with
  | zero => intro j c0 i c ow h; simp [setProbe] at h
  | succ f ih =>
    intro j c0 i c ow h
    rw [setProbe] at h
    by_cases h1 : (entryAt es (probeIndex mask key j)).is_set = true
    · by_cases h2 : (entryAt es (probeIndex mask key j)).key = key
      · rw [if_pos h1, if_pos h2] at h
        simp only [Option.some.injEq, Prod.mk.injEq] at h
        obtain ⟨rfl, rfl, _⟩ := h
        exact ⟨le_refl _, by simp⟩
      · rw [if_pos h1, if_neg h2] at h
        have := ih (j + 1) (c0 + 1) i c ow h
        refine ⟨by omega, ?_⟩
        rw [this.2]
        congr 1
        omega
    · rw [if_neg h1] at h
      simp only [Option.some.injEq, Prod.mk.injEq] at h
      obtain ⟨rfl, rfl, _⟩ := h
      exact ⟨le_refl _, by simp⟩

/-! ## The steps of `hash_int` -/

theorem hashBits_eq_mix (u : Nat) :
    hashBits u = mixShl31 (mixSar31 (mixAdd (mixShl24 (mixMul u)))) := rfl

theorem mixMul_lt (k : Nat) : mixMul k < 4294967296 := Nat.mod_lt _ (by decide)

theorem mixMul_inv (k : Nat) (h : k < 4294967296) :
    (mixMul k * 1073741821) % 4294967296 = k := by
  unfold mixMul
  omega

theorem mixMul_inv' (y : Nat) (h : y < 4294967296) :
    mixMul ((y * 1073741821) % 4294967296) = y := by
  unfold mixMul
  omega

theorem mixAdd_lt (k : Nat) : mixAdd k < 4294967296 := Nat.mod_lt _ (by decide)

theorem mixAdd_inv (k : Nat) (h : k < 4294967296) :
    (mixAdd k + 357913942) % 4294967296 = k := by
  unfold mixAdd
  omega

theorem mixAdd_inv' (y : Nat) (h : y < 4294967296) :
    mixAdd ((y + 357913942) % 4294967296) = y := by
  unfold mixAdd
  omega

theorem two_pow_32 : (4294967296 : Nat) = 2 ^ 32 := by norm_num

theorem testBit_of_lt32 (x i : Nat) (h : x < 4294967296) (hi : 32 ≤ i) : x.testBit i = false := by
  apply Nat.testBit_lt_two_pow
  have : 2 ^ 32 ≤ 2 ^ i := Nat.pow_le_pow_right (by decide) hi
  norm_num at this
  omega

theorem mixShl24_lt (k : Nat) (h : k < 4294967296) : mixShl24 k < 4294967296 := by
  unfold mixShl24
  rw [two_pow_32] at h ⊢
  exact Nat.xor_lt_two_pow h (Nat.mod_lt _ (by decide))

theorem mixShl24_invol (k : Nat) : mixShl24 (mixShl24 k) = k := by
  apply Nat.eq_of_testBit_eq
  intro i
  unfold mixShl24
  rw [two_pow_32]
  simp only [Nat.testBit_xor, Nat.testBit_mod_two_pow, Nat.testBit_shiftLeft]
  by_cases h1 : i < 32
  · by_cases h2 : 24 ≤ i
    · have h3 : ¬ (24 ≤ i - 24) := by omega
      simp [h1, h2, h3]
    · simp [h1, h2]
  · simp [h1]

theorem xor_ones (x : Nat) (h : x < 4294967296) : x ^^^ 4294967295 = 4294967295 - x := by
  apply Nat.eq_of_testBit_eq
  intro i
  have e1 : (4294967295 : Nat) = 2 ^ 32 - 1 := by norm_num
  have e2 : 4294967295 - x = 2 ^ 32 - (x + 1) := by norm_num; omega
  rw [e2, Nat.testBit_two_pow_sub_succ (by rw [← two_pow_32]; exact h), Nat.testBit_xor, e1,
    Nat.testBit_two_pow_sub_one]
  by_cases h1 : i < 32
  · simp [h1]
  · simp [h1, testBit_of_lt32 x i h (by omega)]

theorem mixSar31_eq (k : Nat) (h : k < 4294967296) :
    mixSar31 k = if k < 2147483648 then k else 4294967295 - k := by
  unfold mixSar31
  split
  · exact Nat.xor_zero k
  · exact xor_ones k h

theorem xor_top_bit (y : Nat) (h : y < 2147483648) : y ^^^ 2147483648 = y + 2147483648 := by
  apply Nat.eq_of_testBit_eq
  intro i
  have e1 : (2147483648 : Nat) = 2 ^ 31 := by norm_num
  have hy : y < 2 ^ 31 := by rw [← e1]; exact h
  rw [Nat.testBit_xor, e1, Nat.add_comm, Nat.testBit_two_pow]
  rcases Nat.lt_trichotomy i 31 with hlt | heq | hgt
  · rw [Nat.testBit_two_pow_add_gt hlt]
    simp [Nat.ne_of_gt hlt]
  · subst heq
    rw [Nat.testBit_two_pow_add_eq, Nat.testBit_lt_two_pow hy]
    simp
  · have h1 : y.testBit i = false := by
      apply Nat.testBit_lt_two_pow
      have : 2 ^ 31 < 2 ^ i := Nat.pow_lt_pow_right (by decide) hgt
      omega
    have h2 : (2 ^ 31 + y).testBit i = false := by
      apply Nat.testBit_lt_two_pow
      have : 2 ^ 32 ≤ 2 ^ i := Nat.pow_le_pow_right (by decide) hgt
      have e3 : (2 : Nat) ^ 32 = 2 ^ 31 + 2 ^ 31 := by norm_num
      omega
    rw [h1, h2]
    simp [Nat.ne_of_lt hgt]

theorem mixShl31_eq (y : Nat) (h : y < 2147483648) :
    mixShl31 y = y + (y % 2) * 2147483648 := by
  unfold mixShl31
  have e : (y <<< 31) % 4294967296 = (y % 2) * 2147483648 := by
    rw [Nat.shiftLeft_eq]
    norm_num
    omega
  rw [e]
  rcases Nat.mod_two_eq_zero_or_one y with h0 | h1
  · rw [h0]; simp
  · rw [h1, Nat.one_mul]; exact xor_top_bit y h

theorem mixSar31_lt (k : Nat) (h : k < 4294967296) : mixSar31 k < 2147483648 := by
  rw [mixSar31_eq k h]
  split <;> omega

theorem top_bit_inj (a b : Nat) (ha : a < 2147483648) (hb : b < 2147483648)
    (h : a + (a % 2) * 2147483648 = b + (b % 2) * 2147483648) : a = b := by
  rcases Nat.mod_two_eq_zero_or_one a with h1 | h1 <;>
    rcases Nat.mod_two_eq_zero_or_one b with h2 | h2 <;>
    rw [h1, h2] at h <;> omega

theorem mixSar31_eq_iff (x x' : Nat) (hx : x < 4294967296) (hx' : x' < 4294967296) :
    mixSar31 x' = mixSar31 x ↔ x' = x ∨ x' = 4294967295 - x := by
  rw [mixSar31_eq x hx, mixSar31_eq x' hx']
  split <;> split <;> omega

theorem hash_tail_eq_iff (x x' : Nat) (hx : x < 4294967296) (hx' : x' < 4294967296) :
    mixShl31 (mixSar31 x') = mixShl31 (mixSar31 x) ↔ x' = x ∨ x' = 4294967295 - x := by
  rw [← mixSar31_eq_iff x x' hx hx']
  constructor
  · intro h
    rw [mixShl31_eq _ (mixSar31_lt x hx), mixShl31_eq _ (mixSar31_lt x' hx')] at h
    exact top_bit_inj _ _ (mixSar31_lt x' hx') (mixSar31_lt x hx) h
  · intro h
    rw [h]

theorem hash_tail_sign (x : Nat) (hx : x < 4294967296) :
    mixShl31 (mixSar31 x) < 4294967296 ∧
      (2147483648 ≤ mixShl31 (mixSar31 x) ↔ mixShl31 (mixSar31 x) % 2 = 1) := by
  have hlt := mixSar31_lt x hx
  rw [mixShl31_eq _ hlt]
  rcases Nat.mod_two_eq_zero_or_one (mixSar31 x) with h1 | h1 <;> rw [h1] <;> omega

theorem mixHead_lt (u : Nat) : mixAdd (mixShl24 (mixMul u)) < 4294967296 := mixAdd_lt _

theorem mixHead_inv (u : Nat) (hu : u < 4294967296) :
    (mixShl24 ((mixAdd (mixShl24 (mixMul u)) + 357913942) % 4294967296) * 1073741821)
      % 4294967296 = u := by
  rw [mixAdd_inv _ (mixShl24_lt _ (mixMul_lt u)), mixShl24_invol, mixMul_inv u hu]

theorem mixHead_inv' (y : Nat) (hy : y < 4294967296) :
    mixAdd (mixShl24 (mixMul
      ((mixShl24 ((y + 357913942) % 4294967296) * 1073741821) % 4294967296))) = y := by
  rw [mixMul_inv' _ (mixShl24_lt _ (Nat.mod_lt _ (by decide))), mixShl24_invol,
    mixAdd_inv' y hy]

theorem twinBits_lt (u : Nat) : twinBits u < 4294967296 := Nat.mod_lt _ (by decide)

theorem mixHead_twin (u : Nat) :
    mixAdd (mixShl24 (mixMul (twinBits u))) = 4294967295 - mixAdd (mixShl24 (mixMul u)) := by
  unfold twinBits
  exact mixHead_inv' _ (by omega)

theorem hashBits_eq_iff (u u' : Nat) (hu : u < 4294967296) (hu' : u' < 4294967296) :
    hashBits u' = hashBits u ↔ u' = u ∨ u' = twinBits u := by
  rw [hashBits_eq_mix, hashBits_eq_mix, hash_tail_eq_iff _ _ (mixHead_lt u) (mixHead_lt u')]
  constructor
  · rintro (h | h)
    · left
      rw [← mixHead_inv u hu, ← mixHead_inv u' hu', h]
    · right
      rw [← mixHead_inv u' hu', h]
      rfl
  · rintro (rfl | rfl)
    · exact Or.inl rfl
    · exact Or.inr (mixHead_twin u)

theorem twinBits_ne (u : Nat) : twinBits u ≠ u := by
  intro h
  have := mixHead_twin u
  rw [h] at this
  have := mixHead_lt u
  omega

theorem hashBits_lt (u : Nat) : hashBits u < 4294967296 := by
  rw [hashBits_eq_mix]
  exact (hash_tail_sign _ (mixHead_lt u)).1

theorem toU32_lt (k : Int) : toU32 k < 4294967296 := by
  unfold toU32
  omega

theorem toI32_toU32 (k : Int) (hlo : -2147483648 ≤ k) (hhi : k < 2147483648) :
    toI32 (toU32 k) = k := by
  unfold toI32 toU32
  split <;> omega

theorem toU32_toI32 (u : Nat) (h : u < 4294967296) : toU32 (toI32 u) = u := by
  unfold toI32 toU32
  split <;> omega

theorem toI32_range (u : Nat) (h : u < 4294967296) :
    -2147483648 ≤ toI32 u ∧ toI32 u < 2147483648 := by
  unfold toI32
  split <;> omega

/-! ## The claims -/

/-- C1: for a table built from `ht_init` by `ht_set` calls alone (mask below
`2 ^ 31`), `ht_get` returns, for every key, the value passed to the last
`ht_set` for that key, and `NULL` when there is none; and the next `ht_set`
returns as long as doubling keeps the mask below `2 ^ 31`. -/
theorem C1_sets_refine_finite_map (ops : List Op) (ht : HashTable) (hr : Reach ops ht)
    (hno : ∀ k, Op.unset k ∉ ops) :
    (∀ k fuel, ht.mask + 1 ≤ fuel → ht_get fuel ht k = some (lastSet ops k)) ∧
    (ht.mask < 1073741824 → ∀ k v fuel, 3 * ht.mask + 8 ≤ fuel →
      ∃ ht' c, ht_set fuel ht k v = some (ht', c) ∧ Reach (Op.set k v :: ops) ht') := by
  obtain ⟨hinv, hcont⟩ := reach_inv ops ht hr hno
  have hs := sound_of_inv ht hinv
  constructor
  · intro k fuel hf
    obtain ⟨res, hres, hiff⟩ := ht_get_chain ht hs.1 (sound_nf ht hs) hinv.2.1 k
    rw [hres fuel hf]
    congr 1
    cases res with
    | none =>
      cases hl : lastSet ops k with
      | none => rfl
      | some v => exact absurd ((hiff v).2 ((hcont k v).2 hl)) (by simp)
    | some v => exact ((hcont k v).1 ((hiff v).1 rfl)).symm
  · intro hm k v fuel hf
    obtain ⟨ht', c, hset, hb⟩ := ht_set_total ht k v fuel hs hm hf
    exact ⟨ht', c, hset, Reach.set fuel k v ht' c hr hset hb⟩

theorem C1_witness :
    Reach [Op.set 5 7] sampleTable ∧ (∀ k, Op.unset k ∉ [Op.set 5 7]) ∧
      ht_get 4096 sampleTable 5 = some (some 7) :=
  ⟨sample_reach, by simp,
    (C1_sets_refine_finite_map _ _ sample_reach (by simp)).1 5 4096 (by decide)⟩

/-- C2 (fails on the code): after `ht_set(0, 0)`, `ht_set(4095, 1)`,
`ht_unset(0)` and `ht_set(k, k)` for the 2045 keys of `fillKeys`, the table has
size 2047 and the two colliding keys occupy slots 1365 (cleared) and 1366.
Then `ht_set(4095, 2)` writes slot 1365, grows the table, and the copy loop
re-inserts the stale pair of slot 1366 last: `ht_get(4095)` yields 1, not 2. -/
theorem C2_stale_value_after_growth :
    ∃ ht ht' c, Reach staleOps ht ∧ ht.size = 2047 ∧ ht.mask = 4095 ∧
      ht_set 12300 ht 4095 2 = some (ht', c) ∧ ht'.mask = 8191 ∧
      ∀ f, ht'.mask + 1 ≤ f → ht_get f ht' 4095 = some (some 1) := by
  obtain ⟨hnd, havoid⟩ := fillKeys_homes
  have hlen : fillKeys.length = 2045 := by decide!
  have key := fill_reach fillKeys _ deletedB deletedB_reach
  rw [show deletedB.mask = 4095 from rfl, show deletedB.size = 2 from rfl, hlen] at key
  obtain ⟨G, hG, hGm, hsize, hent⟩ :=
    key hnd (fun k hk => deletedB_entry _ (havoid k hk).2) (by decide)
  have hGs := reach_sound _ _ hG
  obtain ⟨ht', c, hset, hb⟩ := ht_set_total G 4095 2 12300 hGs (by omega) (by omega)
  have hout := ht_set_step G 4095 2 12300 ht' c hGs hset hb
  have hs' := sound_of_outcome G 4095 2 ht' c hGs hout
  obtain ⟨hc, hst, hcase⟩ := hout
  have hstart : startIndex G.mask 4095 = 1365 := by rw [hGm]; decide!
  have hnot : ∀ i, (i = 1365 ∨ i = 1366) → i ∉ fillKeys.map (startIndex 4095) := by
    intro i hi hmem
    obtain ⟨k, hk, heq⟩ := List.mem_map.1 hmem
    rcases hi with rfl | rfl
    · exact (havoid k hk).1 heq
    · exact (havoid k hk).2 heq
  have hG1365 : (entryAt G.entries 1365).is_set = false := by
    rw [(hent 1365).1 (hnot 1365 (Or.inl rfl))]
    exact deletedB_entry 1365 (by decide)
  have e0 : (1365 + 0) % (4095 + 1) = 1365 := by decide
  have hc0 : c = 0 := by
    by_contra hne
    have := (hst.1 0 (by omega)).1
    rw [hstart, hGm, e0, hG1365] at this
    exact absurd this (by decide)
  subst hc0
  have hp : (startIndex G.mask 4095 + 0) % (G.mask + 1) = 1365 := by rw [hstart, hGm]
  rw [hp] at hcase
  rcases hcase with ⟨h1, _⟩ | ⟨_, hroom, _⟩ | ⟨_, _, _, hgrow⟩
  · rw [hG1365] at h1
    exact absurd h1 (by decide)
  · rw [hsize, hGm] at hroom
    omega
  · obtain ⟨rwf, rch, rsz, rmask, rle, rcont, _⟩ := hgrow
    simp only at rmask rle rcont
    have hlast : LastBelow (G.entries.set 1365 ⟨true, 4095, 2⟩) (G.mask + 1) 4095 1 := by
      refine ⟨1366, by omega, ?_, fun j' h1 h2 hn => ?_⟩
      · rw [entryAt_set_other _ _ _ _ (by decide), (hent 1366).1 (hnot 1366 (Or.inr rfl))]
        decide!
      · rw [entryAt_set_other _ _ _ _ (by omega)] at hn
        rcases (hent j').2 with h | ⟨k, hk, h⟩
        · rw [h, deletedB_entry j' (by omega)] at hn
          exact absurd hn.1 (by decide)
        · rw [h] at hn
          exact fillKeys_ne k hk hn.2
    have hsto : Stored ht' 4095 1 := (rcont 4095 1).2 hlast
    obtain ⟨res, hres, hiff⟩ := ht_get_chain ht' rwf (sound_nf ht' hs') rch 4095
    have hres1 : res = some 1 := (hiff 1).2 hsto
    subst hres1
    exact ⟨G, ht', 0, hG, by omega, hGm, hset, by omega, hres⟩

/-- C3 (fails on the code): the keys 0, 4095 and 8191 have the same start
index 1365; after inserting them in that order into a fresh table,
`ht_unset(0)` returns 1 and then `ht_get` returns `NULL` for 4095 and for 8191,
although both are still stored. -/
theorem C3_unset_hides_colliding_keys :
    startIndex 4095 0 = 1365 ∧ startIndex 4095 4095 = 1365 ∧ startIndex 4095 8191 = 1365 ∧
      Reach [Op.set 8191 2, Op.set 4095 1, Op.set 0 0] collideC ∧
      ht_unset 1 collideC 0 = some (deletedC, 1) ∧
      (∀ f, 1 ≤ f → ht_get f deletedC 4095 = some none) ∧
      (∀ f, 1 ≤ f → ht_get f deletedC 8191 = some none) ∧
      Stored deletedC 4095 1 ∧ Stored deletedC 8191 2 :=
  ⟨by decide!, by decide!, by decide!, collideC_reach, by decide!,
    ht_get_empty_start deletedC 4095 (by decide!),
    ht_get_empty_start deletedC 8191 (by decide!),
    ⟨1366, by decide, by decide!⟩, ⟨1367, by decide, by decide!⟩⟩

/-- C4 (fails on the code): after `ht_set(0, 0)` and `ht_set(4095, 1)` on a
fresh table the key 4095 is set (`ht_get` yields 1), yet `ht_unset(4095)`
never returns: its loop stays on slot 1365, which holds key 0. -/
theorem C4_unset_diverges_on_set_key :
    Reach [Op.set 4095 1, Op.set 0 0] collideB ∧
      (∀ f, 2 ≤ f → ht_get f collideB 4095 = some (some 1)) ∧
      ∀ fuel, ht_unset fuel collideB 4095 = none :=
  ⟨collideB_reach,
    fun f hf => ht_get_mono 2 f collideB 4095 (some 1) hf (by decide!),
    unsetLoop_stuck collideB 4095 _ (by decide!) (by decide!)⟩

/-- C5: for every table and key, when `ht_unset` returns 1, in the resulting
table `ht_get` of that key returns `NULL` and a second `ht_unset` returns 0. -/
theorem C5_unset_then_absent (ht : HashTable) (k : Int) (fuel : Nat) (ht' : HashTable)
    (h : ht_unset fuel ht k = some (ht', 1)) :
    (∀ f, 1 ≤ f → ht_get f ht' k = some none) ∧
    (∀ f, 1 ≤ f → ht_unset f ht' k = some (ht', 0)) := by
  rcases unsetLoop_some ht k _ fuel ht' 1 h with ⟨_, _, h0⟩ | ⟨h1, _, rfl, _⟩
  · exact absurd h0 (by decide)
  · have he : (entryAt (ht.entries.set (startIndex ht.mask k)
        ⟨false, (entryAt ht.entries (startIndex ht.mask k)).key,
          (entryAt ht.entries (startIndex ht.mask k)).value⟩) (startIndex ht.mask k)).is_set
        = false := by
      rw [entryAt_set_self _ _ _ (lt_length_of_is_set _ _ h1)]
    constructor
    · intro f hf
      obtain ⟨g, rfl⟩ : ∃ g, f = g + 1 := ⟨f - 1, by omega⟩
      simp only [ht_get, getProbe, he, Bool.false_eq_true, if_false]
    · intro f hf
      obtain ⟨g, rfl⟩ : ∃ g, f = g + 1 := ⟨f - 1, by omega⟩
      simp only [ht_unset, unsetLoop, he, Bool.false_eq_true, if_false]

theorem C5_witness :
    ht_unset 1 sampleTable 5 = some (sampleCleared, 1) ∧
      ((∀ f, 1 ≤ f → ht_get f sampleCleared 5 = some none) ∧
       (∀ f, 1 ≤ f → ht_unset f sampleCleared 5 = some (sampleCleared, 0))) :=
  ⟨sample_unset, C5_unset_then_absent sampleTable 5 1 sampleCleared sample_unset⟩

/-- C6 (fails on the code): after `ht_set(5, 7)` and a successful
`ht_unset(5)` on a fresh table, `size` is still 1 while no slot is occupied. -/
theorem C6_unset_keeps_size :
    Reach [Op.unset 5, Op.set 5 7] sampleCleared ∧
      ht_unset 1 sampleTable 5 = some (sampleCleared, 1) ∧
      sampleTable.size = 1 ∧ sampleCleared.size = 1 ∧ occupied sampleCleared.entries = 0 :=
  ⟨Reach.unset 1 5 sampleCleared 1 sample_reach sample_unset, sample_unset, rfl, rfl,
    by decide!⟩

/-- C7 (fails on the code): after `ht_set(0, 0)`, `ht_set(4095, 1)`,
`ht_unset(0)` and `ht_set(4095, 3)` on a fresh table, the occupied slots 1365
and 1366 both hold key 4095. -/
theorem C7_duplicate_key_after_unset :
    Reach [Op.set 4095 3, Op.unset 0, Op.set 4095 1, Op.set 0 0] duplicatedB ∧
      entryAt duplicatedB.entries 1365 = ⟨true, 4095, 3⟩ ∧
      entryAt duplicatedB.entries 1366 = ⟨true, 4095, 1⟩ ∧
      ¬ UniqueKeys duplicatedB :=
  ⟨Reach.set 2 4095 3 duplicatedB 0 deletedB_reach (by decide!) (by decide),
    by decide!, by decide!,
    fun hu => absurd (hu 1365 1366 (by decide) (by decide) (by decide!) (by decide!)
      (by decide!)) (by decide)⟩

/-- C8: on every reachable table `ht_set(k, v1)` returns (as long as doubling
keeps the mask below `2 ^ 31`); and once it has returned, `ht_set(k, v2)` returns, leaves `size` and
`mask` as they were after the first call, and `ht_get(k)` then yields `v2`. -/
theorem C8_overwrite (ops : List Op) (ht : HashTable) (hr : Reach ops ht) (k v1 v2 : Int) :
    (ht.mask < 1073741824 → ∀ fuel, 3 * ht.mask + 8 ≤ fuel →
      ∃ ht1 c1, ht_set fuel ht k v1 = some (ht1, c1) ∧ ht1.mask < 2147483648) ∧
    (∀ f1 ht1 c1, ht_set f1 ht k v1 = some (ht1, c1) → ht1.mask < 2147483648 →
      ∀ fuel, ht1.mask + 2 ≤ fuel →
        ∃ ht2 c2, ht_set fuel ht1 k v2 = some (ht2, c2) ∧ ht2.size = ht1.size ∧
          ht2.mask = ht1.mask ∧
          ∀ f, ht2.mask + 1 ≤ f → ht_get f ht2 k = some (some v2)) := by
  have hs := reach_sound ops ht hr
  refine ⟨fun hm fuel hf => ht_set_total ht k v1 fuel hs hm hf, ?_⟩
  intro f1 ht1 c1 h1 hb fuel hf
  have hout := ht_set_step ht k v1 f1 ht1 c1 hs h1 hb
  have hs1 := sound_of_outcome ht k v1 ht1 c1 hs hout
  obtain ⟨d, v', hd, hst, he⟩ := found_of_outcome ht k v1 ht1 c1 hs hout
  obtain ⟨e, hme⟩ := hs1.1.2
  obtain ⟨g, rfl⟩ : ∃ g, fuel = g + 1 := ⟨fuel - 1, by omega⟩
  have hset := ht_set_of_stops ht1 e k v2 d g hme hst (by omega)
  rw [he] at hset
  simp only [if_true] at hset
  refine ⟨_, _, hset, rfl, rfl, ?_⟩
  intro f hff
  simp only at hff
  have hst2 := stops_write ht1.entries (ht1.mask + 1) (startIndex ht1.mask k) k v2 d
    (by omega) hs1.1.1 hst
  have hp : (startIndex ht1.mask k + d) % (ht1.mask + 1) < ht1.entries.length := by
    rw [hs1.1.1]; exact Nat.mod_lt _ (by omega)
  have hget := ht_get_of_stops
    { ht1 with entries :=
        ht1.entries.set ((startIndex ht1.mask k + d) % (ht1.mask + 1)) ⟨true, k, v2⟩ }
    e k d f hme hst2 (by omega)
  simp only [entryAt_set_self _ _ _ hp, if_true] at hget
  exact hget

theorem C8_witness :
    Reach [] ht_init ∧
      ∃ ht2 c2, ht_set 4097 sampleTable 5 8 = some (ht2, c2) ∧ ht2.size = sampleTable.size ∧
        ht2.mask = sampleTable.mask ∧
        ∀ f, ht2.mask + 1 ≤ f → ht_get f ht2 5 = some (some 8) :=
  ⟨Reach.init,
    (C8_overwrite [] ht_init Reach.init 5 7 8).2 2 sampleTable 0 sample_set (by decide) 4097
      (by decide)⟩

/-- C9: on every reachable table, `ht_get` returns `NULL` for every key that
was never passed to `ht_set`; in particular on the table made by `ht_init`. -/
theorem C9_never_set_is_absent (ops : List Op) (ht : HashTable) (hr : Reach ops ht) (k : Int)
    (hk : ∀ v, Op.set k v ∉ ops) :
    ∀ fuel, ht.mask + 1 ≤ fuel → ht_get fuel ht k = some none := by
  intro fuel hf
  have hs := reach_sound ops ht hr
  obtain ⟨res, hres, hsub⟩ := ht_get_sound ht hs.1 (sound_nf ht hs) k
  rw [hres fuel hf]
  cases res with
  | none => rfl
  | some v =>
    obtain ⟨v', hv'⟩ := reach_keys ops ht hr k v (hsub v rfl)
    exact absurd hv' (hk v')

theorem C9_witness :
    Reach [Op.set 5 7] sampleTable ∧ (∀ v, Op.set 6 v ∉ [Op.set 5 7]) ∧
      ∀ fuel, sampleTable.mask + 1 ≤ fuel → ht_get fuel sampleTable 6 = some none :=
  ⟨sample_reach, by simp,
    C9_never_set_is_absent [Op.set 5 7] sampleTable sample_reach 6 (by simp)⟩

/-- C10: on a well-formed table (capacity below `2 ^ 30`) whose occupied slots
hold pairwise distinct keys and which has an empty slot, `ht_grow` returns a
table with `mask' = 2 * mask + 1` whose `size` is the number of occupied slots
of the old array and in which `ht_get(k)` yields `v` exactly for the pairs
`(k, v)` stored in the old array, and `NULL` for every other key. -/
theorem C10_grow_preserves_entries (ht : HashTable) (hwf : WF ht)
    (hm : ht.mask < 1073741824) (hu : UniqueKeys ht)
    (hempty : ∃ i, i ≤ ht.mask ∧ (entryAt ht.entries i).is_set = false)
    (fuel : Nat) (hf : 3 * ht.mask + 6 ≤ fuel) :
    ∃ r, ht_grow fuel ht = some r ∧ r.mask = 2 * ht.mask + 1 ∧
      r.size = occupied ht.entries ∧
      ∀ k, ∃ res, (∀ f, r.mask + 1 ≤ f → ht_get f r k = some res) ∧
        (∀ v, res = some v ↔ Stored ht k v) := by
  have hnf : occupied ht.entries ≤ ht.mask := by
    obtain ⟨i, hi, he⟩ := hempty
    have := (exists_empty_iff ht.entries).1 ⟨i, by rw [hwf.1]; omega, he⟩
    rw [hwf.1] at this
    omega
  obtain ⟨r, hr, rwf, rch, rsz, rmask, rle, rcont, runiq⟩ := ht_grow_spec ht hwf hnf hm fuel hf
  refine ⟨r, hr, rmask, runiq hu, fun k => ?_⟩
  obtain ⟨res, hres, hiff⟩ := ht_get_chain r rwf (by omega) rch k
  refine ⟨res, hres, fun v => ?_⟩
  rw [hiff, rcont, lastBelow_of_unique ht hu]

theorem C10_witness :
    WF sampleTable ∧ sampleTable.mask < 1073741824 ∧ UniqueKeys sampleTable ∧
      (∃ i, i ≤ sampleTable.mask ∧ (entryAt sampleTable.entries i).is_set = false) ∧
      ∃ r, ht_grow 12291 sampleTable = some r ∧ r.mask = 2 * sampleTable.mask + 1 ∧
        r.size = occupied sampleTable.entries ∧
        ∀ k, ∃ res, (∀ f, r.mask + 1 ≤ f → ht_get f r k = some res) ∧
          (∀ v, res = some v ↔ Stored sampleTable k v) :=
  ⟨(reach_sound _ _ sample_reach).1, by decide,
    chain_unique _ (reach_inv _ _ sample_reach (by simp)).1.2.1, ⟨0, Nat.zero_le _, rfl⟩,
    C10_grow_preserves_entries sampleTable (reach_sound _ _ sample_reach).1 (by decide)
      (chain_unique _ (reach_inv _ _ sample_reach (by simp)).1.2.1)
      ⟨0, Nat.zero_le _, rfl⟩ 12291 (by decide)⟩

/-- C11: on every reachable table `mask = 2 ^ n - 1` with `n >= 12` and the
array has `mask + 1` slots; `ht_unset` keeps the mask (and `ht_get` returns no
table at all); a returning `ht_set` keeps the mask or makes it `2 * mask + 1`,
never less, and it changes the mask exactly when the key was not found
(`ht_get` gave `NULL`) and the incremented size satisfies `size * 2 > mask`. -/
theorem C11_capacity_evolution (ops : List Op) (ht : HashTable) (hr : Reach ops ht) :
    (∃ n, 12 ≤ n ∧ ht.mask = 2 ^ n - 1) ∧ ht.entries.length = ht.mask + 1 ∧
    (∀ fuel k ht' r, ht_unset fuel ht k = some (ht', r) → ht'.mask = ht.mask) ∧
    (∀ fuel k v ht' c, ht_set fuel ht k v = some (ht', c) → ht'.mask < 2147483648 →
      (ht'.mask = ht.mask ∨ ht'.mask = 2 * ht.mask + 1) ∧ ht.mask ≤ ht'.mask ∧
      (ht'.mask ≠ ht.mask ↔
        ((∀ f, ht.mask + 1 ≤ f → ht_get f ht k = some none) ∧
          ht.mask < (ht.size + 1) * 2))) := by
  have hs := reach_sound ops ht hr
  obtain ⟨e, hme⟩ := hs.1.2
  refine ⟨⟨e, twelve_le_of_pow e ht.mask hme hs.2.2.2.1, by omega⟩, hs.1.1, ?_, ?_⟩
  · intro fuel k ht' r h
    rcases unsetLoop_some ht k _ fuel ht' r h with ⟨_, rfl, _⟩ | ⟨_, _, rfl, _⟩ <;> rfl
  · intro fuel k v ht' c h hb
    obtain ⟨hc, hst, hcase⟩ := ht_set_step ht k v fuel ht' c hs h hb
    have hiff := ht_get_none_iff_stops ht e k c hme hc hst
    rcases hcase with ⟨h1, rfl⟩ | ⟨h1, hroom, rfl⟩ | ⟨h1, hgr, hm30, hout⟩
    · refine ⟨Or.inl rfl, le_refl _, ?_⟩
      constructor
      · intro hne; exact absurd rfl hne
      · rintro ⟨hnone, _⟩
        rw [hiff.1 hnone] at h1
        exact absurd h1 (by decide)
    · refine ⟨Or.inl rfl, le_refl _, ?_⟩
      constructor
      · intro hne; exact absurd rfl hne
      · rintro ⟨_, hlt⟩
        omega
    · have hmask : ht'.mask = 2 * ht.mask + 1 := hout.2.2.2.1
      refine ⟨Or.inr hmask, by omega, ?_⟩
      constructor
      · intro _; exact ⟨hiff.2 h1, hgr⟩
      · intro _; omega

theorem C11_witness :
    Reach [Op.set 5 7] sampleTable ∧ (∃ n, 12 ≤ n ∧ sampleTable.mask = 2 ^ n - 1) ∧
      sampleTable.entries.length = sampleTable.mask + 1 :=
  ⟨sample_reach, (C11_capacity_evolution _ _ sample_reach).1,
    (C11_capacity_evolution _ _ sample_reach).2.1⟩

/-- C12: from `ht_init`, the calls `ht_set(i, i)` for `i = 0, ..., 999` in
order all return and lead to one table; on it `ht_get(500)` yields 500 and
`ht_unset(500)` returns 1; afterwards `ht_get(500)` returns `NULL` and
`ht_get(501)` yields 501. -/
theorem C12_end_to_end :
    ∃ ht ht', Reach scenarioOps ht ∧ (∀ t, Reach scenarioOps t → t = ht) ∧ ht.mask = 4095 ∧
      (∀ f, 1 ≤ f → ht_get f ht 500 = some (some 500)) ∧
      (∀ f, 1 ≤ f → ht_unset f ht 500 = some (ht', 1)) ∧
      (∀ f, 1 ≤ f → ht_get f ht' 500 = some none) ∧
      (∀ f, 1 ≤ f → ht_get f ht' 501 = some (some 501)) := by
  have hlen : scenarioKeys.length = 1000 := by decide!
  have key := fill_reach_homes scenarioKeys [] ht_init Reach.init
  rw [show ht_init.mask = 4095 from rfl, show ht_init.size = 0 from rfl, hlen] at key
  obtain ⟨ht, hr, hm, _, _, hin⟩ := key scenario_homes
    (fun k _ => by rw [show ht_init.entries = List.replicate (0xfff + 1) zeroEntry from rfl,
      entryAt_replicate]; rfl) (by decide)
  have h500 : (500 : Int) ∈ scenarioKeys :=
    List.mem_map.2 ⟨500, List.mem_range.2 (by decide), rfl⟩
  have h501 : (501 : Int) ∈ scenarioKeys :=
    List.mem_map.2 ⟨501, List.mem_range.2 (by decide), rfl⟩
  have e500 := hin 500 h500
  have e501 := hin 501 h501
  rw [← hm] at e500 e501
  have hne : startIndex ht.mask 500 ≠ startIndex ht.mask 501 := by rw [hm]; decide!
  have hun := ht_unset_hit ht 500 (by rw [e500]) (by rw [e500])
  rw [e500] at hun
  refine ⟨ht, _, by simpa [scenarioOps] using hr, fun t ht' => ?_, hm,
    ht_get_hit_start ht 500 500 e500, hun, ?_, ?_⟩
  · exact (reach_det _ _ (by simpa [scenarioOps] using hr) t ht').symm
  · apply ht_get_empty_start
    simp only
    rw [entryAt_set_self _ _ _ (lt_length_of_is_set _ _ (by rw [e500]))]
  · apply ht_get_hit_start
    simp only
    rw [entryAt_set_other _ _ _ _ hne, e501]

/-- C13: for every list of at most 2048 pairs with pairwise distinct keys that
all have the same start index under mask `0xfff`, the `ht_set` calls made in
order on a fresh table all return, and the `j`-th call (from 0) returns the
collision count `j`: the counts are `0, 1, 2, ...`, so the first is 0 and they
never decrease. -/
theorem C13_collision_counts (kvs : List (Int × Int)) (s : Nat)
    (hstart : ∀ p ∈ kvs, startIndex 4095 p.1 = s) (hnd : (kvs.map (fun p => p.1)).Nodup)
    (hlen : kvs.length ≤ 2048) (fuel : Nat) (hf : 12293 ≤ fuel) :
    ∃ ht', runSets fuel ht_init kvs = some (ht', List.range kvs.length) ∧
      (List.range kvs.length).Pairwise (fun a b => a ≤ b) := by
  obtain ⟨ht', h⟩ := collide_run s fuel hf kvs [] ht_init rfl (sound_of_inv _ inv_init) rfl
    (fun i hi => absurd hi (Nat.not_lt_zero _))
    (fun i _ _ => by
      rw [show ht_init.entries = List.replicate (0xfff + 1) zeroEntry from rfl,
        entryAt_replicate]; rfl)
    hstart (fun p _ => List.not_mem_nil _) hnd (by simpa using hlen)
  refine ⟨ht', ?_, List.pairwise_le_range _⟩
  rw [h]
  simp

theorem C13_witness :
    (∀ p ∈ [((0 : Int), (10 : Int)), (4095, 20), (8191, 30)], startIndex 4095 p.1 = 1365) ∧
      ([((0 : Int), (10 : Int)), (4095, 20), (8191, 30)].map (fun p => p.1)).Nodup ∧
      ∃ ht', runSets 12293 ht_init [(0, 10), (4095, 20), (8191, 30)]
          = some (ht', List.range [((0 : Int), (10 : Int)), (4095, 20), (8191, 30)].length) ∧
        (List.range [((0 : Int), (10 : Int)), (4095, 20), (8191, 30)].length).Pairwise
          (fun a b => a ≤ b) :=
  have h1 : ∀ p ∈ [((0 : Int), (10 : Int)), (4095, 20), (8191, 30)],
      startIndex 4095 p.1 = 1365 := by decide!
  have h2 : ([((0 : Int), (10 : Int)), (4095, 20), (8191, 30)].map (fun p => p.1)).Nodup := by
    decide
  ⟨h1, h2, C13_collision_counts _ 1365 h1 h2 (by decide) 12293 (le_refl _)⟩

/-- C14: on every reachable table the number of occupied slots is at most
`size` and `size * 2 <= mask`; hence some slot is empty, and the probe loops
of `ht_set` and `ht_get` stop within `mask + 1` iterations for every key. -/
theorem C14_never_full (ops : List Op) (ht : HashTable) (hr : Reach ops ht) :
    occupied ht.entries ≤ ht.size ∧ ht.size * 2 ≤ ht.mask ∧
    (∃ i, i ≤ ht.mask ∧ (entryAt ht.entries i).is_set = false) ∧
    ∀ k,
      (∃ r, setProbe (ht.mask + 1) ht.entries ht.mask k (startIndex ht.mask k) 0 = some r ∧
        r.2.1 ≤ ht.mask) ∧
      (∃ res, ht_get (ht.mask + 1) ht k = some res) := by
  have hs := reach_sound ops ht hr
  obtain ⟨e, hme⟩ := hs.1.2
  refine ⟨hs.2.1, hs.2.2.1, ?_, fun k => ?_⟩
  · have hnf := sound_nf ht hs
    obtain ⟨i, hi, he⟩ := exists_empty_of_occupied_lt ht.entries (by rw [hs.1.1]; omega)
    exact ⟨i, by rw [hs.1.1] at hi; omega, he⟩
  · obtain ⟨d, hd, hst⟩ := sound_stops ht hs k
    refine ⟨⟨_, setProbe_stops ht.entries ht.mask e k hme d _ 0 (ht.mask + 1) (by omega)
      (startIndex_le _ _ hme k) hst, by simp only; omega⟩, ?_⟩
    exact ⟨_, ht_get_of_stops ht e k d _ hme hst (by omega)⟩

theorem C14_witness :
    Reach [Op.set 5 7] sampleTable ∧ occupied sampleTable.entries ≤ sampleTable.size ∧
      sampleTable.size * 2 ≤ sampleTable.mask :=
  ⟨sample_reach, (C14_never_full _ _ sample_reach).1, (C14_never_full _ _ sample_reach).2.1⟩

/-- C15: `ht_unset(key)` looks only at the slot of index `hash_int(key) & mask`.
If that slot is empty it returns 0 and leaves the table as it is; if it holds
`key` it returns 1 and only clears the `is_set` flag of that slot; if it is
occupied by another key it never returns.  So it returns exactly in the first
two cases; and on a table built by `ht_set` calls alone it never returns for a
key stored in a slot other than its start slot. -/
theorem C15_unset_returns_iff (ht : HashTable) (key : Int) :
    ((entryAt ht.entries (startIndex ht.mask key)).is_set = false →
      ∀ fuel, 1 ≤ fuel → ht_unset fuel ht key = some (ht, 0)) ∧
    ((entryAt ht.entries (startIndex ht.mask key)).is_set = true →
      (entryAt ht.entries (startIndex ht.mask key)).key = key →
      ∀ fuel, 1 ≤ fuel → ht_unset fuel ht key =
        some ({ entries := ht.entries.set (startIndex ht.mask key)
                  ⟨false, (entryAt ht.entries (startIndex ht.mask key)).key,
                    (entryAt ht.entries (startIndex ht.mask key)).value⟩,
                size := ht.size, mask := ht.mask }, 1)) ∧
    ((entryAt ht.entries (startIndex ht.mask key)).is_set = true →
      (entryAt ht.entries (startIndex ht.mask key)).key ≠ key →
      ∀ fuel, ht_unset fuel ht key = none) ∧
    ((∃ fuel r, ht_unset fuel ht key = some r) ↔
      ((entryAt ht.entries (startIndex ht.mask key)).is_set = false ∨
        (entryAt ht.entries (startIndex ht.mask key)).key = key)) ∧
    (∀ ops, Reach ops ht → (∀ k, Op.unset k ∉ ops) →
      ∀ i v, i ≤ ht.mask → i ≠ startIndex ht.mask key →
        entryAt ht.entries i = ⟨true, key, v⟩ → ∀ fuel, ht_unset fuel ht key = none) := by
  refine ⟨ht_unset_empty ht key, ht_unset_hit ht key,
    fun h1 h2 => unsetLoop_stuck ht key _ h1 h2, ?_, ?_⟩
  · constructor
    · rintro ⟨fuel, ⟨ht', r⟩, h⟩
      rcases unsetLoop_some ht key _ fuel ht' r h with ⟨h1, _, _⟩ | ⟨_, h2, _, _⟩
      · exact Or.inl h1
      · exact Or.inr h2
    · intro h
      by_cases h1 : (entryAt ht.entries (startIndex ht.mask key)).is_set = true
      · rcases h with h | h
        · rw [h] at h1; exact absurd h1 (by decide)
        · exact ⟨1, _, ht_unset_hit ht key h1 h 1 (le_refl _)⟩
      · exact ⟨1, _, ht_unset_empty ht key (by simpa using h1) 1 (le_refl _)⟩
  · intro ops hr hno i v hi hne he
    obtain ⟨hinv, _⟩ := reach_inv ops ht hr hno
    obtain ⟨e, hme⟩ := hinv.1.2
    obtain ⟨d, hd, hdi, hb⟩ := hinv.2.1 i hi (by rw [he])
    rw [he] at hdi hb
    simp only at hdi hb
    have hz := add_zero_mod (startIndex ht.mask key) ht.mask (startIndex_le _ _ hme key)
    have hd0 : 0 < d := by
      rcases Nat.eq_zero_or_pos d with h0 | h0
      · subst h0
        rw [hz] at hdi
        exact absurd hdi.symm hne
      · exact h0
    have h0 := hb 0 hd0
    rw [hz] at h0
    exact unsetLoop_stuck ht key _ h0.1 h0.2

theorem C15_witness :
    Reach [Op.set 4095 1, Op.set 0 0] collideB ∧
      (∀ k, Op.unset k ∉ [Op.set 4095 1, Op.set 0 0]) ∧
      ∀ fuel, ht_unset fuel collideB 4095 = none :=
  ⟨collideB_reach, by simp,
    (C15_unset_returns_iff collideB 4095).2.2.2.2 _ collideB_reach (by simp) 1366 1
      (by decide) (by decide!) (by decide!)⟩

/-- C16: the probe-reachability predicate `Chain` holds on the table of
`ht_init`; every returning `ht_set` (with the growth it may trigger) preserves
it on a table that is not overloaded; and a successful `ht_unset` can break
it: after `ht_set(0, 0)`, `ht_set(4095, 1)` the predicate holds, and after
`ht_unset(0)` returned 1 it fails for key 4095, whose start slot is now empty. -/
theorem C16_probe_reachability :
    Chain ht_init ∧
    (∀ ht k v fuel ht' c, Sound ht → Chain ht → ht_set fuel ht k v = some (ht', c) →
      ht'.mask < 2147483648 → Chain ht') ∧
    (∀ ops ht, Reach ops ht → (∀ k, Op.unset k ∉ ops) → Chain ht) ∧
    (Reach [Op.set 4095 1, Op.set 0 0] collideB ∧ Chain collideB ∧
      ht_unset 1 collideB 0 = some (deletedB, 1) ∧ ¬ Chain deletedB) :=
  ⟨inv_init.2.1,
    fun ht k v fuel ht' c hs hch h hb =>
      chain_of_outcome ht k v ht' c hs hch (ht_set_step ht k v fuel ht' c hs h hb),
    fun ops ht hr hno => (reach_inv ops ht hr hno).1.2.1,
    collideB_reach, (reach_inv _ _ collideB_reach (by simp)).1.2.1, by decide!,
    deletedB_not_chain⟩

theorem C16_witness : Sound ht_init ∧ Chain ht_init ∧ Chain sampleTable :=
  ⟨sound_of_inv _ inv_init, inv_init.2.1,
    C16_probe_reachability.2.1 ht_init 5 7 2 sampleTable 0 (sound_of_inv _ inv_init)
      inv_init.2.1 sample_set (by decide)⟩

/-- C17: for every key and every `mask = 2 ^ n - 1` with `n <= 31`, the start
index `hash_int(key) & mask` and the next index `(index + 1) & mask` computed
from any `int index` are C `int`s in `[0, mask]`; the indices of the probe
sequence are at most `mask`, the index at which the probe loop of `ht_set`
stops (and `ht_get` reads the same slots, `ht_unset` only the first) is one of
them, and all lie inside an array of `mask + 1` slots. -/
theorem C17_index_safety (n : Nat) (hn : n ≤ 31) (key : Int) :
    (0 ≤ toI32 (toU32 (hash_int key) &&& (2 ^ n - 1)) ∧
      toI32 (toU32 (hash_int key) &&& (2 ^ n - 1)) ≤ ((2 ^ n - 1 : Nat) : Int)) ∧
    (∀ index : Int,
      0 ≤ toI32 (toU32 (index + 1) &&& (2 ^ n - 1)) ∧
        toI32 (toU32 (index + 1) &&& (2 ^ n - 1)) ≤ ((2 ^ n - 1 : Nat) : Int)) ∧
    (∀ j, probeIndex (2 ^ n - 1) key j ≤ 2 ^ n - 1) ∧
    (∀ fuel es i c ow,
      setProbe fuel es (2 ^ n - 1) key (startIndex (2 ^ n - 1) key) 0 = some (i, c, ow) →
        i = probeIndex (2 ^ n - 1) key c ∧ i ≤ 2 ^ n - 1) ∧
    (∀ es : List HashTableEntry, es.length = 2 ^ n - 1 + 1 →
      ∀ j, probeIndex (2 ^ n - 1) key j < es.length) := by
  have hpow : 2 ^ n ≤ 2 ^ 31 := Nat.pow_le_pow_right (by decide) hn
  have hpos : 0 < 2 ^ n := Nat.pow_pos (by decide)
  have hmask : 2 ^ n - 1 < 2147483648 := by norm_num at hpow; omega
  have hand : ∀ x : Nat, 0 ≤ toI32 (x &&& (2 ^ n - 1)) ∧
      toI32 (x &&& (2 ^ n - 1)) ≤ ((2 ^ n - 1 : Nat) : Int) := by
    intro x
    have hle : x &&& (2 ^ n - 1) ≤ 2 ^ n - 1 := Nat.and_le_right
    rw [toI32_of_lt _ (by omega)]
    exact ⟨Int.natCast_nonneg _, Int.ofNat_le.2 hle⟩
  refine ⟨hand _, fun index => hand _, probeIndex_le _ key, ?_, ?_⟩
  · intro fuel es i c ow h
    have := setProbe_index es (2 ^ n - 1) key fuel 0 0 i c ow h
    simp only [Nat.zero_add, Nat.sub_zero] at this
    exact ⟨this.2, by rw [this.2]; exact probeIndex_le _ key c⟩
  · intro es hlen j
    have := probeIndex_le (2 ^ n - 1) key j
    omega

theorem C17_witness :
    (12 : Nat) ≤ 31 ∧
      (0 ≤ toI32 (toU32 (hash_int 0) &&& (2 ^ 12 - 1)) ∧
        toI32 (toU32 (hash_int 0) &&& (2 ^ 12 - 1)) ≤ ((2 ^ 12 - 1 : Nat) : Int)) ∧
      hash_int 0 < 0 :=
  ⟨by decide, (C17_index_safety 12 (by decide) 0).1, by decide!⟩

/-- C18: on 32-bit integers `hash_int` is exactly two-to-one: for every `k`
there is exactly one `k'` other than `k` with the same hash; and every output
has its sign bit equal to its bit 0 (it is negative exactly when it is odd). -/
theorem C18_hash_two_to_one (k : Int) (hlo : -2147483648 ≤ k) (hhi : k < 2147483648) :
    (∃ k', (-2147483648 ≤ k' ∧ k' < 2147483648 ∧ k' ≠ k ∧ hash_int k' = hash_int k) ∧
      ∀ k'', -2147483648 ≤ k'' ∧ k'' < 2147483648 ∧ k'' ≠ k ∧ hash_int k'' = hash_int k →
        k'' = k') ∧
    (hash_int k < 0 ↔ hash_int k % 2 = 1) ∧
    (toU32 (hash_int k)).testBit 31 = (toU32 (hash_int k)).testBit 0 := by
  have hiff : ∀ k' : Int, -2147483648 ≤ k' → k' < 2147483648 →
      (hash_int k' = hash_int k ↔ k' = k ∨ k' = toI32 (twinBits (toU32 k))) := by
    intro k' hlo' hhi'
    unfold hash_int
    constructor
    · intro h
      have h1 : hashBits (toU32 k') = hashBits (toU32 k) := by
        rw [← toU32_toI32 _ (hashBits_lt (toU32 k')), ← toU32_toI32 _ (hashBits_lt (toU32 k)), h]
      rcases (hashBits_eq_iff _ _ (toU32_lt k) (toU32_lt k')).1 h1 with h2 | h2
      · left
        rw [← toI32_toU32 k' hlo' hhi', ← toI32_toU32 k hlo hhi, h2]
      · right
        rw [← toI32_toU32 k' hlo' hhi', h2]
    · rintro (rfl | rfl)
      · rfl
      · rw [toU32_toI32 _ (twinBits_lt _),
          (hashBits_eq_iff _ _ (toU32_lt k) (twinBits_lt _)).2 (Or.inr rfl)]
  have hr := toI32_range _ (twinBits_lt (toU32 k))
  have hne : toI32 (twinBits (toU32 k)) ≠ k := by
    intro h
    have := congrArg toU32 h
    rw [toU32_toI32 _ (twinBits_lt _)] at this
    exact twinBits_ne _ this
  refine ⟨⟨toI32 (twinBits (toU32 k)), ⟨hr.1, hr.2, hne, (hiff _ hr.1 hr.2).2 (Or.inr rfl)⟩,
    ?_⟩, ?_, ?_⟩
  · rintro k'' ⟨h1, h2, h3, h4⟩
    rcases (hiff k'' h1 h2).1 h4 with h | h
    · exact absurd h h3
    · exact h
  · have hs := hash_tail_sign _ (mixHead_lt (toU32 k))
    rw [← hashBits_eq_mix] at hs
    unfold hash_int toI32
    split <;> omega
  · have hs := hash_tail_sign _ (mixHead_lt (toU32 k))
    rw [← hashBits_eq_mix] at hs
    unfold hash_int
    rw [toU32_toI32 _ hs.1, Nat.testBit_zero, Nat.testBit_to_div_mod]
    have : (hashBits (toU32 k) / 2 ^ 31 % 2 = 1) ↔ (hashBits (toU32 k) % 2 = 1) := by
      norm_num
      omega
    simp only [this]

theorem C18_witness :
    (-2147483648 : Int) ≤ 0 ∧ (0 : Int) < 2147483648 ∧
      ((∃ k', (-2147483648 ≤ k' ∧ k' < 2147483648 ∧ k' ≠ 0 ∧ hash_int k' = hash_int 0) ∧
        ∀ k'', -2147483648 ≤ k'' ∧ k'' < 2147483648 ∧ k'' ≠ 0 ∧ hash_int k'' = hash_int 0 →
          k'' = k') ∧
      (hash_int 0 < 0 ↔ hash_int 0 % 2 = 1) ∧
      (toU32 (hash_int 0)).testBit 31 = (toU32 (hash_int 0)).testBit 0) :=
  ⟨by decide, by decide, C18_hash_two_to_one 0 (by decide) (by decide)⟩

end HT
